import Mathlib

/-!
Verification of the oapix code-generation engine against its design
specification.

The Go sources (package gen: template_funcs.go and generator.go, package
client) are shallowly embedded below.  Go strings are modelled as lists of
characters (the inputs of interest are ASCII identifiers, paths and status
codes, where Go's byte/rune distinction is immaterial, and where the core
Char.isUpper, Char.isLower, Char.isAlpha, Char.isDigit, Char.toLower and
Char.toUpper functions coincide with Go's unicode package).  Maps that the
Go code iterates are modelled as association lists carrying the iteration
order explicitly.  A Go function that can panic is embedded with an Option
result, the panic being None.
-/

namespace Oapix

/-- Go strings, restricted to their ASCII fragment, as lists of characters. -/
abbrev GoStr := List Char

/-- Conversion from Lean string literals to the embedded string type. -/
def gs (s : String) : GoStr := s.data

/-- Embedding of Go strings.ToLower restricted to ASCII. -/
def lowerStr (s : GoStr) : GoStr := s.map Char.toLower

/-- Embedding of Go strings.ToUpper restricted to ASCII. -/
def upperStr (s : GoStr) : GoStr := s.map Char.toUpper

/-- Embedding of Go strings.HasSuffix on the list representation. -/
def endsWith (s suffix : GoStr) : Bool := suffix.isSuffixOf s

/-- Embedding of Go strings.HasPrefix on the list representation. -/
def beginsWith (s pre : GoStr) : Bool := pre.isPrefixOf s

section CharFacts

/-- Unfolding value of Char.ofNat at a valid scalar value below the
surrogate range. -/
theorem char_toNat_ofNat {n : Nat} (h : n < 0xd800) : (Char.ofNat n).toNat = n := by
  have hv : n.isValidChar := Or.inl h
  rw [Char.ofNat, dif_pos hv]
  simp [Char.ofNatAux, Char.toNat, UInt32.toNat]

theorem isUpper_toNat {c : Char} (h : c.isUpper = true) :
    65 ≤ c.toNat ∧ c.toNat ≤ 90 := by
  simp only [Char.isUpper, Bool.and_eq_true, decide_eq_true_eq] at h
  obtain ⟨h1, h2⟩ := h
  constructor
  · exact h1
  · exact h2

theorem isLower_toNat {c : Char} (h : c.isLower = true) :
    97 ≤ c.toNat ∧ c.toNat ≤ 122 := by
  simp only [Char.isLower, Bool.and_eq_true, decide_eq_true_eq] at h
  obtain ⟨h1, h2⟩ := h
  constructor
  · exact h1
  · exact h2

theorem toNat_isUpper {c : Char} (h1 : 65 ≤ c.toNat) (h2 : c.toNat ≤ 90) :
    c.isUpper = true := by
  simp only [Char.isUpper, Bool.and_eq_true, decide_eq_true_eq]
  exact ⟨h1, h2⟩

theorem toNat_isLower {c : Char} (h1 : 97 ≤ c.toNat) (h2 : c.toNat ≤ 122) :
    c.isLower = true := by
  simp only [Char.isLower, Bool.and_eq_true, decide_eq_true_eq]
  exact ⟨h1, h2⟩

theorem toLower_toNat_of_isUpper {c : Char} (h : c.isUpper = true) :
    (c.toLower).toNat = c.toNat + 32 := by
  obtain ⟨h1, h2⟩ := isUpper_toNat h
  simp only [Char.toLower, if_pos (And.intro h1 h2)]
  exact char_toNat_ofNat (by omega)

theorem toLower_toNat_of_not_isUpper {c : Char} (h : c.isUpper = false) :
    c.toLower = c := by
  simp only [Char.isUpper, Bool.and_eq_false_iff, decide_eq_false_iff_not] at h
  simp only [Char.toLower]
  rw [if_neg]
  intro hc
  rcases h with h | h
  · exact h hc.1
  · exact h hc.2

theorem toUpper_toNat_of_isLower {c : Char} (h : c.isLower = true) :
    (c.toUpper).toNat = c.toNat - 32 := by
  obtain ⟨h1, h2⟩ := isLower_toNat h
  simp only [Char.toUpper, if_pos (And.intro h1 h2)]
  exact char_toNat_ofNat (by omega)

theorem toUpper_of_not_isLower {c : Char} (h : c.isLower = false) :
    c.toUpper = c := by
  simp only [Char.isLower, Bool.and_eq_false_iff, decide_eq_false_iff_not] at h
  simp only [Char.toUpper]
  rw [if_neg]
  intro hc
  rcases h with h | h
  · exact h hc.1
  · exact h hc.2

theorem char_eq_of_toNat_eq {a b : Char} (h : a.toNat = b.toNat) : a = b := by
  rw [← Char.ofNat_toNat a, h, Char.ofNat_toNat]

theorem isLower_toLower {c : Char} (h : c.isUpper = true) :
    (c.toLower).isLower = true := by
  obtain ⟨h1, h2⟩ := isUpper_toNat h
  have := toLower_toNat_of_isUpper h
  exact toNat_isLower (by omega) (by omega)

theorem isUpper_toUpper {c : Char} (h : c.isLower = true) :
    (c.toUpper).isUpper = true := by
  obtain ⟨h1, h2⟩ := isLower_toNat h
  have := toUpper_toNat_of_isLower h
  exact toNat_isUpper (by omega) (by omega)

theorem toUpper_toLower {c : Char} (h : c.isUpper = true) :
    (c.toLower).toUpper = c := by
  have hl := isLower_toLower h
  have h1 := toLower_toNat_of_isUpper h
  have h2 := toUpper_toNat_of_isLower hl
  apply char_eq_of_toNat_eq
  rw [h2, h1]
  obtain ⟨hb, _⟩ := isUpper_toNat h
  omega

theorem toLower_toUpper {c : Char} (h : c.isLower = true) :
    (c.toUpper).toLower = c := by
  have hu := isUpper_toUpper h
  have h1 := toUpper_toNat_of_isLower h
  have h2 := toLower_toNat_of_isUpper hu
  apply char_eq_of_toNat_eq
  rw [h2, h1]
  obtain ⟨hb, _⟩ := isLower_toNat h
  omega

theorem not_isUpper_of_isLower {c : Char} (h : c.isLower = true) :
    c.isUpper = false := by
  obtain ⟨h1, h2⟩ := isLower_toNat h
  by_contra hne
  have hu : c.isUpper = true := by
    cases hh : c.isUpper
    · exact absurd hh hne
    · rfl
  obtain ⟨h3, h4⟩ := isUpper_toNat hu
  omega

theorem not_isLower_of_isUpper {c : Char} (h : c.isUpper = true) :
    c.isLower = false := by
  obtain ⟨h1, h2⟩ := isUpper_toNat h
  by_contra hne
  have hl : c.isLower = true := by
    cases hh : c.isLower
    · exact absurd hh hne
    · rfl
  obtain ⟨h3, h4⟩ := isLower_toNat hl
  omega

theorem toLower_of_isLower {c : Char} (h : c.isLower = true) : c.toLower = c :=
  toLower_toNat_of_not_isUpper (not_isUpper_of_isLower h)

theorem toUpper_of_isUpper {c : Char} (h : c.isUpper = true) : c.toUpper = c :=
  toUpper_of_not_isLower (not_isLower_of_isUpper h)

theorem isAlpha_toLower {c : Char} (h : c.isAlpha = true) :
    (c.toLower).isLower = true := by
  simp only [Char.isAlpha, Bool.or_eq_true] at h
  rcases h with h | h
  · exact isLower_toLower h
  · rw [toLower_of_isLower h]
    exact h

theorem isAlpha_toUpper {c : Char} (h : c.isAlpha = true) :
    (c.toUpper).isUpper = true := by
  simp only [Char.isAlpha, Bool.or_eq_true] at h
  rcases h with h | h
  · rw [toUpper_of_isUpper h]
    exact h
  · exact isUpper_toUpper h

theorem isAlpha_of_isUpper {c : Char} (h : c.isUpper = true) : c.isAlpha = true := by
  simp only [Char.isAlpha, Bool.or_eq_true]
  exact Or.inl h

theorem isAlpha_of_isLower {c : Char} (h : c.isLower = true) : c.isAlpha = true := by
  simp only [Char.isAlpha, Bool.or_eq_true]
  exact Or.inr h

end CharFacts

/-! ## Naming engine (template_funcs.go) -/

/-- ASCII white space, as trimmed by Go strings.TrimSpace. -/
def isSpaceGo (c : Char) : Bool :=
  c = ' ' || c = '\t' || c = '\n' || c = '\x0b' || c = '\x0c' || c = '\r'

/-- Embedding of Go strings.TrimSpace on the ASCII fragment. -/
def trimSpace (s : GoStr) : GoStr :=
  ((s.dropWhile isSpaceGo).reverse.dropWhile isSpaceGo).reverse

/-- Scanner loop of toPascalCase (template_funcs.go lines 56 to 88): walks the
string once, splitting the current word before an upper-case letter whose
previous or next character is lower case, accumulating letters and digits,
and flushing the current word at any other character.  The Go loop carries
the byte index i; this recursion carries the previous character instead
(prev is none exactly when i = 0) and the remaining input, whose head is the
current character and whose tail begins with the next character. -/
def splitWordsAux : Option Char → GoStr → GoStr → List GoStr
  | _, cur, [] => if cur.isEmpty then [] else [cur]
  | prev, cur, r :: rs =>
    let nextLower : Bool := match rs with | n :: _ => n.isLower | [] => false
    let boundary : Bool := match prev with
      | none => false
      | some p => r.isUpper && (p.isLower || nextLower)
    let flushed : List GoStr × GoStr :=
      if boundary && !cur.isEmpty then ([cur], []) else ([], cur)
    if r.isAlpha || r.isDigit then
      flushed.1 ++ splitWordsAux (some r) (flushed.2 ++ [r]) rs
    else
      flushed.1 ++ (if flushed.2.isEmpty then [] else [flushed.2]) ++
        splitWordsAux (some r) [] rs

/-- Word decomposition performed by toPascalCase. -/
def splitWords (s : GoStr) : List GoStr := splitWordsAux none [] s

/-- The fixed acronym set of toPascalCase. -/
def acronyms : List GoStr :=
  [gs "ID", gs "URL", gs "API", gs "HTTP", gs "HTTPS", gs "JSON", gs "XML"]

/-- Upper-case the first character and lower-case the remainder, as done by
the regular-word branch of toPascalCase. -/
def capWord (w : GoStr) : GoStr :=
  match w with
  | [] => []
  | c :: rest => c.toUpper :: lowerStr rest

/-- Index of the first letter of a word, mirroring the letterStart loop of
toPascalCase (a none result corresponds to Go letterStart = -1). -/
def letterStartIdx (w : GoStr) : Option Nat := w.findIdx? (·.isAlpha)

/-- Per-word rendering of toPascalCase (lines 92 to 141): empty words are
skipped, acronym-set words are replaced by their all-caps form, words
beginning with a digit keep the digit run verbatim and capitalise the letter
part, and other words are capitalised with the tail lowered.  The two
branches of the Go if at lines 118 to 130 have identical bodies, so the word
index does not influence the result and is not carried here. -/
def renderWord (w : GoStr) : GoStr :=
  if w.isEmpty then []
  else
    let uw := upperStr w
    if acronyms.contains uw then uw
    else
      match w with
      | [] => []
      | c0 :: _ =>
        if c0.isDigit then
          match letterStartIdx w with
          | some k =>
            if k > 0 then w.take k ++ capWord (w.drop k)
            else w
          | none => w
        else capWord w

/-- Embedding of toPascalCase (template_funcs.go lines 49 to 145). -/
def toPascalCase (s : GoStr) : GoStr :=
  let t := trimSpace s
  if t.isEmpty then []
  else ((splitWords t).map renderWord).flatten

/-- Index of the first lower-case letter, as found by the loop of
toCamelCase. -/
def firstLowerIdx (s : GoStr) : Option Nat := s.findIdx? (·.isLower)

/-- Case adjustment performed by toCamelCase after pascal-casing
(template_funcs.go lines 150 to 169): at the first lower-case letter of the
pascalised string, position 0 keeps the string, position 1 lowers the first
character, a later position i lowers the prefix up to i-1 to keep the last
letter of a leading acronym, and a string with no lower-case letter is
lowered entirely. -/
def camelAdjust (p : GoStr) : GoStr :=
  if p.isEmpty then []
  else
    match firstLowerIdx p with
    | none => lowerStr p
    | some i =>
      if i = 0 then p
      else if i > 1 then lowerStr (p.take (i - 1)) ++ p.drop (i - 1)
      else lowerStr (p.take 1) ++ p.drop 1

/-- Embedding of toCamelCase (template_funcs.go lines 148 to 170). -/
def toCamelCase (s : GoStr) : GoStr := camelAdjust (toPascalCase s)

/-! ## Pluralisation (template_funcs.go) -/

/-- Embedding of isVowel (template_funcs.go lines 349 to 352). -/
def isVowel (c : Char) : Bool :=
  c = 'a' || c = 'e' || c = 'i' || c = 'o' || c = 'u' ||
  c = 'A' || c = 'E' || c = 'I' || c = 'O' || c = 'U'

/-- The irregular table of pluralize, keys lowered. -/
def irregularPlurals : List (GoStr × GoStr) :=
  [(gs "child", gs "children"), (gs "person", gs "people"),
   (gs "man", gs "men"), (gs "woman", gs "women"),
   (gs "foot", gs "feet"), (gs "tooth", gs "teeth"),
   (gs "goose", gs "geese"), (gs "mouse", gs "mice")]

/-- The irregular table of singularize, keys lowered. -/
def irregularSingulars : List (GoStr × GoStr) :=
  [(gs "children", gs "child"), (gs "people", gs "person"),
   (gs "men", gs "man"), (gs "women", gs "woman"),
   (gs "feet", gs "foot"), (gs "teeth", gs "tooth"),
   (gs "geese", gs "goose"), (gs "mice", gs "mouse")]

/-- Capitalisation applied to an irregular-table result when the input has
an upper-case first character: upper the first letter, keep the rest. -/
def capFirst (w : GoStr) : GoStr :=
  match w with
  | [] => []
  | c :: rest => c.toUpper :: rest

/-- The suffix rules of pluralize after the ies rule: s, x, z, ch and sh
endings take es, anything else takes s. -/
def pluralSuffixRules (s : GoStr) : GoStr :=
  if endsWith s (gs "s") || endsWith s (gs "x") || endsWith s (gs "z") ||
     endsWith s (gs "ch") || endsWith s (gs "sh") then s ++ gs "es"
  else s ++ gs "s"

/-- Embedding of pluralize (template_funcs.go lines 268 to 303).  The Go
code indexes s[len(s)-2] after a HasSuffix(s, "y") test; when s is the
single character y this index is out of range and the Go program panics,
which the embedding reports as none. -/
def pluralize (s : GoStr) : Option GoStr :=
  if s.isEmpty then some []
  else
    match (irregularPlurals.lookup (lowerStr s)) with
    | some plural =>
      some (if (s.headI).isUpper then capFirst plural else plural)
    | none =>
      if endsWith s (gs "y") then
        if s.length < 2 then none
        else if !isVowel (s.getD (s.length - 2) ' ') then
          some (s.take (s.length - 1) ++ gs "ies")
        else
          some (pluralSuffixRules s)
      else
        some (pluralSuffixRules s)

/-- Embedding of singularize (template_funcs.go lines 306 to 346). -/
def singularize (s : GoStr) : GoStr :=
  if s.isEmpty then []
  else
    match (irregularSingulars.lookup (lowerStr s)) with
    | some singular =>
      if (s.headI).isUpper then capFirst singular else singular
    | none =>
      if endsWith s (gs "ies") then s.take (s.length - 3) ++ gs "y"
      else
        if endsWith s (gs "es") &&
           (endsWith (s.take (s.length - 2)) (gs "s") ||
            endsWith (s.take (s.length - 2)) (gs "x") ||
            endsWith (s.take (s.length - 2)) (gs "z") ||
            endsWith (s.take (s.length - 2)) (gs "ch") ||
            endsWith (s.take (s.length - 2)) (gs "sh")) then
          s.take (s.length - 2)
        else if endsWith s (gs "s") && !endsWith s (gs "ss") then
          s.take (s.length - 1)
        else s

section SuffixKit

theorem endsWith_iff {s sfx : GoStr} : endsWith s sfx = true ↔ ∃ t, s = t ++ sfx := by
  constructor
  · intro h
    obtain ⟨t, ht⟩ := List.isSuffixOf_iff_suffix.mp h
    exact ⟨t, ht.symm⟩
  · intro h
    obtain ⟨t, ht⟩ := h
    exact List.isSuffixOf_iff_suffix.mpr ⟨t, ht.symm⟩

theorem endsWith_cancel (x v u : GoStr) :
    endsWith (x ++ u) (v ++ u) = endsWith x v := by
  cases h : endsWith x v with
  | true =>
    obtain ⟨t, ht⟩ := endsWith_iff.mp h
    apply endsWith_iff.mpr
    exact ⟨t, by rw [ht, List.append_assoc]⟩
  | false =>
    by_contra hne
    have htrue : endsWith (x ++ u) (v ++ u) = true := by
      cases hh : endsWith (x ++ u) (v ++ u)
      · exact absurd (hh ▸ rfl) hne
      · rfl
    obtain ⟨t, ht⟩ := endsWith_iff.mp htrue
    rw [← List.append_assoc] at ht
    have hx : x = t ++ v := List.append_cancel_right ht
    have : endsWith x v = true := endsWith_iff.mpr ⟨t, hx⟩
    rw [h] at this
    exact Bool.false_ne_true this

theorem endsWith_nil (s : GoStr) : endsWith s [] = true :=
  endsWith_iff.mpr ⟨s, by simp⟩

theorem endsWith_self (s : GoStr) : endsWith s s = true :=
  endsWith_iff.mpr ⟨[], by simp⟩

theorem endsWith_last (t : GoStr) (a b : Char) :
    endsWith (t ++ [a]) [b] = true ↔ a = b := by
  constructor
  · intro h
    obtain ⟨r, hr⟩ := endsWith_iff.mp h
    have := congrArg List.reverse hr
    simp at this
    exact this.1
  · intro h
    subst h
    exact endsWith_iff.mpr ⟨t, rfl⟩

theorem endsWith_append_tail (t : GoStr) (c : Char) (u sfx : GoStr) :
    endsWith ((t ++ [c]) ++ u) (sfx ++ u) = endsWith (t ++ [c]) sfx :=
  endsWith_cancel (t ++ [c]) sfx u

theorem isEmpty_append_ne_nil {t u : GoStr} (h : u ≠ []) :
    (t ++ u).isEmpty = false := by
  cases u with
  | nil => exact absurd rfl h
  | cons c cs => cases t <;> rfl

theorem take_pre_length (t u : GoStr) (n : Nat) (h : n = t.length) :
    (t ++ u).take n = t := by
  subst h
  exact List.take_left t u

theorem lowerStr_append (a b : GoStr) : lowerStr (a ++ b) = lowerStr a ++ lowerStr b :=
  List.map_append Char.toLower a b

theorem lookup_some_key_mem :
    ∀ (l : List (GoStr × GoStr)) (k v : GoStr), l.lookup k = some v →
      k ∈ l.map Prod.fst := by
  intro l
  induction l with
  | nil => intro k v h; simp [List.lookup] at h
  | cons p ps ih =>
    intro k v h
    cases p with
    | mk k1 v1 =>
      simp only [List.lookup] at h
      cases hk : k == k1 with
      | true =>
        simp only [List.map, List.mem_cons]
        left
        exact eq_of_beq hk
      | false =>
        rw [hk] at h
        simp only [List.map, List.mem_cons]
        right
        exact ih k v h

/-- A word ending in the letter y never hits the irregular table of
pluralize: none of the eight keys ends in y. -/
theorem irrP_none_of_endsY (t : GoStr) :
    irregularPlurals.lookup (lowerStr (t ++ ['y'])) = none := by
  cases hl : irregularPlurals.lookup (lowerStr (t ++ ['y'])) with
  | none => rfl
  | some v =>
    exfalso
    have hmem := lookup_some_key_mem _ _ _ hl
    have hend : endsWith (lowerStr (t ++ ['y'])) ['y'] = true := by
      rw [lowerStr_append]
      exact (endsWith_last (lowerStr t) _ _).mpr (by decide)
    simp only [irregularPlurals, List.map, List.mem_cons, List.not_mem_nil, or_false] at hmem
    rcases hmem with h | h | h | h | h | h | h | h <;>
      rw [h] at hend <;> revert hend <;> decide

/-- A word ending in s, x, z, ch or sh never hits the irregular table of
pluralize. -/
theorem irrP_none_of_sfx (t sfx : GoStr)
    (hs : sfx = gs "s" ∨ sfx = gs "x" ∨ sfx = gs "z" ∨ sfx = gs "ch" ∨ sfx = gs "sh") :
    irregularPlurals.lookup (lowerStr (t ++ sfx)) = none := by
  cases hl : irregularPlurals.lookup (lowerStr (t ++ sfx)) with
  | none => rfl
  | some v =>
    exfalso
    have hmem := lookup_some_key_mem _ _ _ hl
    have hend : endsWith (lowerStr (t ++ sfx)) sfx = true := by
      rw [lowerStr_append]
      have hlow : lowerStr sfx = sfx := by
        rcases hs with h | h | h | h | h <;> subst h <;> decide
      rw [hlow]
      have h2 := endsWith_cancel (lowerStr t) [] sfx
      simp only [List.nil_append] at h2
      rw [h2]
      exact endsWith_nil _
    simp only [irregularPlurals, List.map, List.mem_cons, List.not_mem_nil, or_false] at hmem
    rcases hmem with h | h | h | h | h | h | h | h <;> rw [h] at hend <;>
      rcases hs with h2 | h2 | h2 | h2 | h2 <;> subst h2 <;> revert hend <;> decide

end SuffixKit

/-! ## Schema model (the openapi3 data consumed by generator.go) -/

/-- An enum literal of an openapi3 schema: schemaToModel keeps string
members and drops any other kind. -/
inductive EnumVal where
  | str (s : GoStr)
  | nonStr
deriving DecidableEq, Repr

mutual

/-- Embedding of the openapi3.Schema fields read by generator.go: the type
list, format, description, enum members, required set, properties map
(as an association list in iteration order), items, the two
additional-properties components, and the nullable flag. -/
inductive Schema where
  | mk (type : Option (List GoStr)) (format : GoStr) (description : GoStr)
      (enum : List EnumVal) (required : List GoStr)
      (properties : List (GoStr × SchemaRef))
      (items : Option SchemaRef)
      (addlHas : Option Bool) (addlSchema : Option SchemaRef)
      (nullable : Bool)

/-- Embedding of openapi3.SchemaRef: a reference string and an optional
resolved value. -/
inductive SchemaRef where
  | mk (ref : GoStr) (value : Option Schema)

end

def Schema.type : Schema → Option (List GoStr)
  | .mk t _ _ _ _ _ _ _ _ _ => t

def Schema.format : Schema → GoStr
  | .mk _ f _ _ _ _ _ _ _ _ => f

def Schema.description : Schema → GoStr
  | .mk _ _ d _ _ _ _ _ _ _ => d

def Schema.enum : Schema → List EnumVal
  | .mk _ _ _ e _ _ _ _ _ _ => e

def Schema.required : Schema → List GoStr
  | .mk _ _ _ _ r _ _ _ _ _ => r

def Schema.properties : Schema → List (GoStr × SchemaRef)
  | .mk _ _ _ _ _ p _ _ _ _ => p

def Schema.items : Schema → Option SchemaRef
  | .mk _ _ _ _ _ _ i _ _ _ => i

def Schema.nullable : Schema → Bool
  | .mk _ _ _ _ _ _ _ _ _ n => n

def SchemaRef.ref : SchemaRef → GoStr
  | .mk r _ => r

def SchemaRef.value : SchemaRef → Option Schema
  | .mk _ v => v

/-- Embedding of the kin-openapi Types.Is receiver: true when the type list
is present, has exactly one element, and that element is the given type. -/
def typesIs (t : Option (List GoStr)) (name : GoStr) : Bool :=
  match t with
  | none => false
  | some l =>
    match l with
    | [x] => x == name
    | _ => false

/-- The first element of the type list, the typeStr of schemaToGoType (an
absent or empty list yields the empty string). -/
def typeStrOf (t : Option (List GoStr)) : GoStr :=
  match t with
  | none => []
  | some l =>
    match l with
    | [] => []
    | x :: _ => x

/-- Embedding of getSchemaRef (template_funcs.go lines 468 to 473), which
always returns the empty string. -/
def getSchemaRef (_ : Schema) : GoStr := []

mutual

/-- Embedding of Generator.schemaToGoType (generator.go lines 382 to 449)
on a present schema; the nil case is schemaToGoType below.  The reference
branch first in the Go body tests getSchemaRef, which always returns the
empty string, so it never fires; it is kept verbatim.  The body then
handles arrays, and finally the basic-type switch, whose object case reads
the additional-properties pair. -/
def schemaToGoTypeV : Schema → GoStr
  | .mk ty format desc enum req props items addlHas addlSchema nullable =>
    if getSchemaRef (.mk ty format desc enum req props items addlHas addlSchema nullable) ≠ [] then
      toPascalCase (((getSchemaRef (Schema.mk ty format desc enum req props items addlHas addlSchema nullable)).splitOn '/').getLast!)
    else if typesIs ty (gs "array") then
      match items with
      | some it => gs "[]" ++ schemaRefToGoTypeV it
      | none => gs "[]interface\x7b\x7d"
    else
      match ty with
      | none => gs "interface\x7b\x7d"
      | some tyl =>
        let typeStr := typeStrOf (some tyl)
        if typeStr == gs "string" then
          if format == gs "date-time" then gs "time.Time"
          else if format == gs "date" then gs "time.Time"
          else gs "string"
        else if typeStr == gs "integer" then
          if format == gs "int32" then gs "int32" else gs "int64"
        else if typeStr == gs "number" then
          if format == gs "float" then gs "float32" else gs "float64"
        else if typeStr == gs "boolean" then gs "bool"
        else if typeStr == gs "object" then
          match addlSchema with
          | some sref =>
            (match sref with
             | .mk rr vv =>
               match vv with
               | some v => gs "map[string]" ++ schemaToGoTypeV v
               | none => gs "map[string]" ++ schemaRefToGoTypeV (SchemaRef.mk rr none))
          | none =>
            match addlHas with
            | some true => gs "map[string]interface\x7b\x7d"
            | _ => gs "interface\x7b\x7d"
        else gs "interface\x7b\x7d"

/-- Embedding of Generator.schemaRefToGoType (generator.go lines 469 to
490) on a present reference; the nil case is schemaRefToGoType below.  A
non-empty reference string yields the pascal-cased last slash-separated
part; otherwise a present value is converted by schemaToGoType. -/
def schemaRefToGoTypeV : SchemaRef → GoStr
  | .mk ref value =>
    if ref ≠ [] then
      toPascalCase ((ref.splitOn '/').getLast!)
    else
      match value with
      | some v => schemaToGoTypeV v
      | none => gs "interface\x7b\x7d"

end

/-- Embedding of schemaToGoType including the nil-schema case. -/
def schemaToGoType (s : Option Schema) : GoStr :=
  match s with
  | none => gs "interface\x7b\x7d"
  | some v => schemaToGoTypeV v

/-- Embedding of schemaRefToGoType including the nil-reference case. -/
def schemaRefToGoType (s : Option SchemaRef) : GoStr :=
  match s with
  | none => gs "interface\x7b\x7d"
  | some r => schemaRefToGoTypeV r

/-- Embedding of Go strings.Contains on the list representation. -/
def containsSub : GoStr → GoStr → Bool
  | s, sub =>
    match s with
    | [] => sub.isEmpty
    | _ :: rest => sub.isPrefixOf s || containsSub rest sub

/-- Modelled from the spec: the date-hint override of the type mapper
(spec section 4.2 step 5, tested by TestSchemaToGoTypeWithDateFields in
pkg/gen/generator_test.go as schemaToGoTypeWithName, whose implementation
file is not part of the available sources).  An integer schema whose
declared format is int32 is widened to int64 whenever the field-name hint
case-insensitively contains the substring date; every other schema is
mapped exactly as by schemaToGoType. -/
def schemaToGoTypeWithName (s : Option Schema) (fieldName : GoStr) : GoStr :=
  let isInt32 : Bool :=
    match s with
    | some v => typesIs v.type (gs "integer") && v.format == gs "int32"
    | none => false
  if isInt32 && containsSub (lowerStr fieldName) (gs "date") then gs "int64"
  else schemaToGoType s

/-! ## Model extraction (generator.go, extractModels and schemaToModel) -/

/-- Embedding of the generated-model Field record (generator.go lines 264
to 272). -/
structure Field where
  name : GoStr
  jsonName : GoStr
  type : GoStr
  description : GoStr
  required : Bool
  nullable : Bool
  omitEmpty : Bool
deriving DecidableEq, Repr

/-- Embedding of the generated Model record (generator.go lines 255 to
261). -/
structure Model where
  name : GoStr
  description : GoStr
  fields : List Field
  isEnum : Bool
  enumValues : List GoStr
deriving DecidableEq, Repr

/-- Embedding of Generator.schemaToModel (generator.go lines 335 to 379).
The Go property loop appends one Field per property whose reference has a
non-nil value, written here as a filterMap over the property list in
iteration order; the required set is membership in the schema's required
list. -/
def schemaToModel (name : GoStr) (s : Schema) : Model :=
  let base : Model :=
    { name := toPascalCase name, description := s.description,
      fields := [], isEnum := false, enumValues := [] }
  if s.enum.length > 0 then
    { base with
      isEnum := true,
      enumValues := s.enum.filterMap (fun v =>
        match v with
        | .str x => some x
        | .nonStr => none) }
  else if typesIs s.type (gs "object") then
    { base with
      fields := s.properties.filterMap (fun p =>
        match p.2.value with
        | none => none
        | some pv =>
          some { name := toPascalCase p.1, jsonName := p.1,
                 type := schemaRefToGoTypeV p.2,
                 description := pv.description,
                 required := s.required.contains p.1,
                 nullable := pv.nullable,
                 omitEmpty := !(s.required.contains p.1) }) }
  else base

/-- Embedding of Generator.extractModels (generator.go lines 313 to 332):
iterates the component schemas (association list in iteration order),
skipping references with a nil value.  schemaToModel never returns nil in
the Go code, so its nil check drops out. -/
def extractModels (schemas : Option (List (GoStr × SchemaRef))) : List Model :=
  match schemas with
  | none => []
  | some l => l.filterMap (fun p =>
      match p.2.value with
      | none => none
      | some v => some (schemaToModel p.1 v))

/-! ## Operation extraction (generator.go) -/

/-- Embedding of openapi3.MediaType: only the schema reference is read. -/
structure MediaType where
  schema : Option SchemaRef

/-- Embedding of openapi3.RequestBody (the value behind a RequestBodyRef):
description, required flag and the content map as an association list. -/
structure RequestBodyVal where
  description : GoStr
  required : Bool
  content : List (GoStr × MediaType)

/-- Embedding of openapi3.RequestBodyRef with its optional value. -/
structure RequestBodyRef where
  value : Option RequestBodyVal

/-- Embedding of openapi3.Response behind a ResponseRef: the optional
description pointer and the content map. -/
structure ResponseVal where
  description : Option GoStr
  content : List (GoStr × MediaType)

/-- Embedding of openapi3.Parameter behind a ParameterRef. -/
structure ParamVal where
  name : GoStr
  paramIn : GoStr
  description : GoStr
  required : Bool
  schema : Option SchemaRef

/-- Embedding of an openapi3.Operation as read by extractPathOperations:
identifier, description, parameter references (nil values allowed), the
optional request body reference and the optional response map, the latter
as an association list in the iteration order of Responses.Map(). -/
structure OAOperation where
  operationId : GoStr
  description : GoStr
  parameters : List (Option ParamVal)
  requestBody : Option RequestBodyRef
  responses : Option (List (GoStr × Option ResponseVal))

/-- Embedding of openapi3.PathItem: one optional operation per method. -/
structure PathItem where
  get : Option OAOperation := none
  post : Option OAOperation := none
  put : Option OAOperation := none
  delete : Option OAOperation := none
  patch : Option OAOperation := none
  head : Option OAOperation := none
  options : Option OAOperation := none

/-- Embedding of the IR Parameter record (generator.go lines 290 to 296). -/
structure Parameter where
  name : GoStr
  paramIn : GoStr
  type : GoStr
  description : GoStr
  required : Bool
deriving DecidableEq, Repr

/-- Embedding of the IR RequestBody record (generator.go lines 299 to
303). -/
structure RequestBody where
  type : GoStr
  description : GoStr
  required : Bool
deriving DecidableEq, Repr

/-- Embedding of the IR Response record (generator.go lines 306 to 310). -/
structure Response where
  statusCode : GoStr
  type : GoStr
  description : GoStr
deriving DecidableEq, Repr

/-- Embedding of the IR Operation record (generator.go lines 275 to 287),
with the responses map as an association list. -/
structure Operation where
  name : GoStr
  method : GoStr
  path : GoStr
  description : GoStr
  operationID : GoStr
  parameters : List Parameter
  requestBody : Option RequestBody
  responses : List (GoStr × Response)
  successResponse : Option Response
  hasMultipleSuccessResponses : Bool
  errorResponses : List Response
deriving Repr

/-- Embedding of the request-body extraction of processOp (generator.go
lines 535 to 544): a RequestBody is produced exactly when the reference and
its value are present and the application/json content entry carries a
schema. -/
def extractRequestBody (rb : Option RequestBodyRef) : Option RequestBody :=
  match rb with
  | none => none
  | some rr =>
    match rr.value with
    | none => none
    | some v =>
      match (v.content.lookup (gs "application/json")) with
      | none => none
      | some mt =>
        match mt.schema with
        | none => none
        | some sref =>
          some { type := schemaRefToGoType (some sref),
                 description := v.description, required := v.required }

/-- Assignment into the responses map of an Operation, modelling the Go
map store operation.Responses[statusCode] = resp. -/
def upsertResponse (m : List (GoStr × Response)) (k : GoStr) (v : Response) :
    List (GoStr × Response) :=
  if m.any (fun p => p.1 == k) then
    m.map (fun p => if p.1 == k then (k, v) else p)
  else m ++ [(k, v)]

/-- State threaded through the response loop of processOp: the responses
map, the first success response seen, the success count and the error
responses in encounter order. -/
structure RespState where
  respMap : List (GoStr × Response)
  success : Option Response
  successCount : Nat
  errors : List Response

/-- One iteration of the response loop of processOp (generator.go lines
549 to 581): nil response values are skipped, the description pointer is
dereferenced with an empty-string default, the type is taken from the
application/json content schema or, failing that, the wildcard content
schema, the response is stored in the map, the first 2xx response is
retained with the 2xx count, and 4xx or 5xx responses are appended to the
error list. -/
def respStep (st : RespState) (entry : GoStr × Option ResponseVal) : RespState :=
  match entry.2 with
  | none => st
  | some v =>
    let desc : GoStr := match v.description with | some d => d | none => []
    let ty : GoStr :=
      match (v.content.lookup (gs "application/json")) with
      | some mt =>
        (match mt.schema with
         | some sr => schemaRefToGoType (some sr)
         | none => wildcardType v)
      | none => wildcardType v
    let resp : Response := { statusCode := entry.1, type := ty, description := desc }
    let afterMap : RespState := { st with respMap := upsertResponse st.respMap entry.1 resp }
    let afterSuccess : RespState :=
      if beginsWith entry.1 (gs "2") then
        { afterMap with
          successCount := afterMap.successCount + 1,
          success := match afterMap.success with | none => some resp | some s => some s }
      else afterMap
    if beginsWith entry.1 (gs "4") || beginsWith entry.1 (gs "5") then
      { afterSuccess with errors := afterSuccess.errors ++ [resp] }
    else afterSuccess
where
  /-- The wildcard fallback branch for the response type. -/
  wildcardType (v : ResponseVal) : GoStr :=
    match (v.content.lookup (gs "*/*")) with
    | some mt =>
      (match mt.schema with
       | some sr => schemaRefToGoType (some sr)
       | none => [])
    | none => []

/-- The response loop of processOp over the whole response map. -/
def processResponses (rs : List (GoStr × Option ResponseVal)) : RespState :=
  rs.foldl respStep { respMap := [], success := none, successCount := 0, errors := [] }

/-- Leftmost removal of brace spans, embedding the Go regexp replacement
of the pattern open-brace, one or more non-close-brace characters,
close-brace by the empty string (used by generateOperationName).  The
scanner keeps a pending buffer after an opening brace: a closing brace
with at least one character between completes a match, which is dropped;
a closing brace immediately after the opening one emits both verbatim
(the pattern needs a non-empty interior); pending input without a closing
brace is emitted verbatim at the end. -/
def stripBraceSpansAux : Option GoStr → GoStr → GoStr
  | none, [] => []
  | some buf, [] => buf
  | none, c :: rest =>
    if c = '{' then stripBraceSpansAux (some ['{']) rest
    else c :: stripBraceSpansAux none rest
  | some buf, c :: rest =>
    if c = '}' then
      if buf.length ≥ 2 then stripBraceSpansAux none rest
      else buf ++ '}' :: stripBraceSpansAux none rest
    else stripBraceSpansAux (some (buf ++ [c])) rest

/-- Removal of path-parameter placeholders from a path. -/
def stripBraceSpans (s : GoStr) : GoStr := stripBraceSpansAux none s

/-- Embedding of Go strings.Trim with the cutset of a single slash. -/
def trimSlashes (s : GoStr) : GoStr :=
  ((s.dropWhile (· = '/')).reverse.dropWhile (· = '/')).reverse

/-- Embedding of generateOperationName (template_funcs.go lines 476 to
494): drop the path parameters, split the trimmed path on slashes, and
concatenate the pascal-cased method with the pascal-cased non-empty
segments. -/
def generateOperationName (method path : GoStr) : GoStr :=
  let cleanPath := stripBraceSpans path
  let parts := (trimSlashes cleanPath).splitOn '/'
  parts.foldl (fun acc part =>
    if part.isEmpty then acc else acc ++ toPascalCase part) (toPascalCase method)

/-- Embedding of the processOp closure of extractPathOperations
(generator.go lines 497 to 586) on a present operation: the name comes
from the pascal-cased operation identifier when one is present and from
generateOperationName otherwise; parameters with nil values are skipped
and their type is the mapped schema when one is present; the request body
and responses are extracted as above. -/
def processOp (method path : GoStr) (op : OAOperation) : Operation :=
  let st : RespState :=
    match op.responses with
    | none => { respMap := [], success := none, successCount := 0, errors := [] }
    | some rs => processResponses rs
  { method := method, path := path,
    description := op.description, operationID := op.operationId,
    name := if !op.operationId.isEmpty then toPascalCase op.operationId
            else generateOperationName method path,
    parameters := op.parameters.filterMap (fun pr =>
      match pr with
      | none => none
      | some pv =>
        some { name := pv.name, paramIn := pv.paramIn,
               description := pv.description, required := pv.required,
               type := match pv.schema with
                       | some sr => schemaRefToGoType (some sr)
                       | none => [] }),
    requestBody := extractRequestBody op.requestBody,
    responses := st.respMap,
    successResponse := st.success,
    hasMultipleSuccessResponses :=
      match op.responses with
      | none => false
      | some _ => st.successCount > 1,
    errorResponses := st.errors }

/-- Embedding of extractPathOperations (generator.go lines 493 to 598):
the methods are processed in the fixed order GET, POST, PUT, DELETE,
PATCH, HEAD, OPTIONS, nil operations being skipped. -/
def extractPathOperations (path : GoStr) (pi : PathItem) : List Operation :=
  [(gs "GET", pi.get), (gs "POST", pi.post), (gs "PUT", pi.put),
   (gs "DELETE", pi.delete), (gs "PATCH", pi.patch),
   (gs "HEAD", pi.head), (gs "OPTIONS", pi.options)].filterMap
    (fun p => p.2.map (processOp p.1 path))

/-- Embedding of extractOperations (generator.go lines 452 to 466): the
path items are visited in the deterministic order of
Paths.InMatchingOrder(), carried here by the association list, and the
per-path operations are appended in that order. -/
def extractOperations (paths : List (GoStr × PathItem)) : List Operation :=
  paths.foldl (fun acc p => acc ++ extractPathOperations p.1 p.2) []

/-! ## Emitter (generator.go, generateFile) -/

/-- Embedding of the effect structure of Generator.generateFile
(generator.go lines 223 to 252) after a successful template rendering.
The external formatter is a parameter: a some result is the formatted
text, none is a formatting error.  The first component collects the file
writes as path and content pairs in order; the second is the returned
error, if any.  When formatting fails, the unformatted text is written to
the output path extended by the suffix .unformatted, and only when the
Verbose option is set; the formatting error is returned either way.  When
formatting succeeds, the formatted text is written to the output path. -/
def generateFileWrites (verbose : Bool) (rendered : GoStr) (outputPath : GoStr)
    (formatted : Option GoStr) : List (GoStr × GoStr) × Option GoStr :=
  match formatted with
  | none =>
    (if verbose then [(outputPath ++ gs ".unformatted", rendered)] else [],
     some (gs "failed to format generated code"))
  | some f => ([(outputPath, f)], none)

/-! ## Path templating -/

/-- Remainder of a string after removing a leading occurrence of a
pattern, none when the pattern does not occur at the front. -/
def stripPre : GoStr → GoStr → Option GoStr
  | [], s => some s
  | _ :: _, [] => none
  | p :: ps, c :: cs => if p = c then stripPre ps cs else none

theorem stripPre_length :
    ∀ (pat s rem : GoStr), stripPre pat s = some rem →
      s.length = pat.length + rem.length := by
  intro pat
  induction pat with
  | nil =>
    intro s rem h
    simp [stripPre] at h
    simp [h]
  | cons p ps ih =>
    intro s rem h
    cases s with
    | nil => simp [stripPre] at h
    | cons c cs =>
      simp only [stripPre] at h
      by_cases hpc : p = c
      · rw [if_pos hpc] at h
        have := ih cs rem h
        simp [List.length_cons, this]
        omega
      · rw [if_neg hpc] at h
        exact absurd h (by simp)

/-- Recursion core of replaceAll.  The fuel argument only bounds the
recursion depth structurally: every step consumes at least one character,
so fuel equal to the subject length never runs out (replaceAllF_fuel
below), and the zero-fuel arm is unreachable from replaceAll. -/
def replaceAllF : Nat → GoStr → GoStr → GoStr → GoStr
  | 0, s, _, _ => s
  | _ + 1, [], _, _ => []
  | fuel + 1, c :: rest, pat, repl =>
    match pat with
    | [] => c :: replaceAllF fuel rest [] repl
    | p :: ps =>
      match stripPre (p :: ps) (c :: rest) with
      | some rem => repl ++ replaceAllF fuel rem (p :: ps) repl
      | none => c :: replaceAllF fuel rest (p :: ps) repl

/-- Embedding of Go strings.ReplaceAll on the list representation:
leftmost, non-overlapping replacement of every occurrence of the pattern.
The generated client only ever substitutes non-empty brace-delimited
patterns, so the empty-pattern boundary behaviour of the Go function is
not modelled. -/
def replaceAll (s pat repl : GoStr) : GoStr :=
  replaceAllF s.length s pat repl

theorem replaceAllF_fuel :
    ∀ (fuel : Nat) (s pat repl : GoStr), s.length ≤ fuel →
      replaceAllF fuel s pat repl = replaceAllF s.length s pat repl := by
  intro fuel
  induction fuel using Nat.strong_induction_on with
  | _ fuel ih =>
    intro s pat repl hle
    match fuel, s with
    | 0, s =>
      have hnil : s = [] := List.eq_nil_of_length_eq_zero (Nat.le_zero.mp hle)
      subst hnil
      rfl
    | fuel + 1, [] => rfl
    | fuel + 1, c :: rest =>
      simp only [List.length_cons] at hle ⊢
      cases pat with
      | nil =>
        simp only [replaceAllF]
        rw [ih fuel (by omega) rest [] repl (by omega),
          ih rest.length (by omega) rest [] repl (by omega)]
      | cons p ps =>
        cases hs : stripPre (p :: ps) (c :: rest) with
        | some rem =>
          have hlen := stripPre_length _ _ _ hs
          simp only [List.length_cons] at hlen
          simp only [replaceAllF, hs]
          have h1 : rem.length ≤ fuel := by omega
          have h2 : rem.length ≤ rest.length := by omega
          rw [ih fuel (by omega) rem (p :: ps) repl h1,
            ih rest.length (by omega) rem (p :: ps) repl h2]
        | none =>
          simp only [replaceAllF, hs]
          rw [ih fuel (by omega) rest (p :: ps) repl (by omega),
            ih rest.length (by omega) rest (p :: ps) repl (by omega)]

/-- Modelled from the spec: the runtime meaning of the named path
substitution produced for the client (spec section 4.3; the generated
code is a chain of strings.ReplaceAll calls, one per path parameter in
the operation's own parameter order, each replacing the brace-delimited
parameter name by that parameter's value, as exercised by
TestBuildPathWithNamedParams in the sources, whose implementation file is
not part of the available sources).  vals assigns the runtime value of
each parameter name. -/
def substPathNamed (path : GoStr) (params : List Parameter)
    (vals : GoStr → GoStr) : GoStr :=
  params.foldl (fun acc p =>
    if p.paramIn == gs "path" then
      replaceAll acc ('{' :: p.name ++ ['}']) (vals p.name)
    else acc) path

/-! ## Server metadata (generator.go, getBaseURL) -/

/-- Embedding of the openapi3.Server data consumed by the generator: only
the URL field is read. -/
structure Server where
  url : GoStr
deriving DecidableEq, Repr, Inhabited

/-- Embedding of Generator.getBaseURL (generator.go): the URL of the first
server when the document lists servers, a fixed fallback otherwise. -/
def getBaseURL (servers : List Server) : GoStr :=
  if servers.length > 0 then (servers.head!).url
  else gs "https://api.example.com"

/-- C9: getBaseURL returns the URL of the first server entry when at least
one server is listed, and the fixed fallback string otherwise. -/
theorem getBaseURL_first_or_fallback :
    (∀ (s : Server) (rest : List Server), getBaseURL (s :: rest) = s.url) ∧
    getBaseURL [] = gs "https://api.example.com" := by
  constructor
  · intro s rest
    simp [getBaseURL, List.head!]
  · simp [getBaseURL]

/-! ## Concrete documents used by the claim theorems -/

/-- A GET operation with no identifier, no parameters, no body and no
responses. -/
def bareGetOp : OAOperation :=
  { operationId := [], description := [], parameters := [],
    requestBody := none, responses := none }

/-- A document with the paths /users and /users/(id), each carrying a GET
operation without an operationId: both synthesize the name GetUsers. -/
def dupPathsDoc : List (GoStr × PathItem) :=
  [(gs "/users", { get := some bareGetOp }),
   (gs "/users/\x7bid\x7d", { get := some bareGetOp })]

/-- C1: the operation extraction of generator.go, as it stands, does not
disambiguate colliding names: for a document whose paths /users and
/users/(id) both carry an identifier-less GET operation, both extracted
operations are named GetUsers, so the extracted name list is not
pairwise-distinct.  The repository's own TestUniqueOperationNames
(pkg/gen/generator_test.go) and the duplicate-operations example demand
distinct suffixed names here, which this extraction does not produce. -/
theorem extractOperations_duplicate_names_on_twin_paths :
    ((extractOperations dupPathsDoc).map Operation.name) =
      [gs "GetUsers", gs "GetUsers"] ∧
    ¬ ((extractOperations dupPathsDoc).map Operation.name).Nodup := by
  constructor
  · decide
  · decide

/-- An integer schema with format int32. -/
def intSchema32 : Schema :=
  .mk (some [gs "integer"]) (gs "int32") [] [] [] [] none none none false

/-- An integer schema with format int64. -/
def intSchema64 : Schema :=
  .mk (some [gs "integer"]) (gs "int64") [] [] [] [] none none none false

/-- An integer schema with no declared format. -/
def intSchemaNoFormat : Schema :=
  .mk (some [gs "integer"]) [] [] [] [] [] none none none false

/-- C2: the hinted type mapping widens an int32 integer schema to int64
exactly when the field-name hint contains the substring date in any
letter case, keeps int32 otherwise, and maps int64 or format-less integer
schemas to int64 regardless of the hint. -/
theorem schemaToGoTypeWithName_date_hint :
    schemaToGoTypeWithName (some intSchema32) (gs "createdDate") = gs "int64" ∧
    schemaToGoTypeWithName (some intSchema32) (gs "lastModifiedDATE") = gs "int64" ∧
    schemaToGoTypeWithName (some intSchema32) (gs "userDateCreated") = gs "int64" ∧
    schemaToGoTypeWithName (some intSchema32) (gs "score") = gs "int32" ∧
    schemaToGoTypeWithName (some intSchema64) (gs "createdDate") = gs "int64" ∧
    schemaToGoTypeWithName (some intSchema64) (gs "score") = gs "int64" ∧
    schemaToGoTypeWithName (some intSchemaNoFormat) (gs "createdDate") = gs "int64" ∧
    schemaToGoTypeWithName (some intSchemaNoFormat) (gs "score") = gs "int64" := by
  refine ⟨?_, ?_, ?_, ?_, ?_, ?_, ?_, ?_⟩ <;> decide

/-- A path parameter of the generated client, as carried by the IR. -/
def pathParam (n : String) : Parameter :=
  { name := gs n, paramIn := gs "path", type := gs "string",
    description := [], required := true }

/-- The value assignment of the C3 scenario: id carries the value 77 and
packageKey the value KEY. -/
def c3Vals (n : GoStr) : GoStr :=
  if n = gs "id" then gs "77" else gs "KEY"

/-- C3: the named path substitution binds each brace-delimited placeholder
to the parameter of the same name: with parameters declared in the order
id then packageKey against the path /packages/(packageKey)/links/(id),
the packageKey value lands in the packageKey position and the id value in
the id position, and declaring the parameters in the opposite order gives
the same result. -/
theorem substPathNamed_binds_by_name :
    substPathNamed (gs "/packages/\x7bpackageKey\x7d/links/\x7bid\x7d")
      [pathParam "id", pathParam "packageKey"] c3Vals =
      gs "/packages/KEY/links/77" ∧
    substPathNamed (gs "/packages/\x7bpackageKey\x7d/links/\x7bid\x7d")
      [pathParam "packageKey", pathParam "id"] c3Vals =
      gs "/packages/KEY/links/77" := by
  constructor
  · decide
  · decide

/-- A media type whose schema is a reference to the named component. -/
def refMediaType (r : String) : List (GoStr × MediaType) :=
  [(gs "application/json", { schema := some (.mk (gs r) none) })]

/-- A response value with the given description and content. -/
def respVal (d : String) (c : List (GoStr × MediaType)) : Option ResponseVal :=
  some { description := some (gs d), content := c }

/-- The response map of the C4 scenario: 200, 201, 400, 403 and 500, of
which only 200, 201 and 500 carry content schemas. -/
def multiRespExample : List (GoStr × Option ResponseVal) :=
  [(gs "200", respVal "ok" (refMediaType "#/components/schemas/User")),
   (gs "201", respVal "created" (refMediaType "#/components/schemas/User")),
   (gs "400", respVal "bad request" []),
   (gs "403", respVal "forbidden" []),
   (gs "500", respVal "server error" (refMediaType "#/components/schemas/ErrorInfo"))]

/-- The operation carrying the C4 response map. -/
def multiRespOp : OAOperation :=
  { operationId := gs "thingOp", description := [], parameters := [],
    requestBody := none, responses := some multiRespExample }

/-- C4 counterexample: on the claimed scenario, the schema-less 403
response is not excluded from ErrorResponses: the error list consists of
the 400, 403 and 500 entries, not of the 400 and 500 entries only. -/
theorem errorResponses_contain_schemaless_403 :
    ((processOp (gs "GET") (gs "/things") multiRespOp).errorResponses.map
        Response.statusCode) = [gs "400", gs "403", gs "500"] ∧
    ((processOp (gs "GET") (gs "/things") multiRespOp).errorResponses.map
        Response.statusCode) ≠ [gs "400", gs "500"] := by
  constructor
  · decide
  · decide

/-- C4 as amended: on the 200, 201, 400, 403, 500 scenario the classifier
sets HasMultipleSuccessResponses, selects the 200 entry as the success
response, and collects the 400, 403 and 500 entries in encounter order as
the error responses, the schema-less 400 and 403 entries carrying an
empty type; the schema-less 403 never counts as a success and the run
does not error. -/
theorem responseClassification_multi_success :
    (processOp (gs "GET") (gs "/things") multiRespOp).hasMultipleSuccessResponses = true ∧
    (processOp (gs "GET") (gs "/things") multiRespOp).successResponse =
      some { statusCode := gs "200", type := gs "User", description := gs "ok" } ∧
    (processOp (gs "GET") (gs "/things") multiRespOp).errorResponses =
      [{ statusCode := gs "400", type := [], description := gs "bad request" },
       { statusCode := gs "403", type := [], description := gs "forbidden" },
       { statusCode := gs "500", type := gs "ErrorInfo", description := gs "server error" }] := by
  refine ⟨?_, ?_, ?_⟩ <;> decide

/-- C5 counterexample: in a run without the Verbose option, a formatting
failure surfaces the formatting error without writing the unformatted
text anywhere: the write list of the emitter is empty. -/
theorem generateFile_silent_on_format_error_without_verbose :
    generateFileWrites false (gs "package p funcbroken") (gs "out/client.go") none =
      ([], some (gs "failed to format generated code")) := by
  decide

/-- C5 as amended: on a formatting failure the emitter persists the
unformatted text to the output path extended by .unformatted before
surfacing the formatting error only when the Verbose option is set; in a
non-verbose run the error is surfaced with no file written. -/
theorem generateFile_unformatted_persist_verbose_only :
    ∀ (verbose : Bool) (rendered outputPath : GoStr),
      generateFileWrites verbose rendered outputPath none =
        ((if verbose then [(outputPath ++ gs ".unformatted", rendered)] else []),
         some (gs "failed to format generated code")) := by
  intro verbose rendered outputPath
  cases verbose <;> rfl

/-- The User schema of the C8 scenario: an object with properties id,
name and email, of which id and name are required. -/
def userSchemaC8 : Schema :=
  .mk (some [gs "object"]) [] [] [] [gs "id", gs "name"]
    [(gs "id", .mk [] (some (.mk (some [gs "integer"]) (gs "int64") [] [] [] [] none none none false))),
     (gs "name", .mk [] (some (.mk (some [gs "string"]) [] [] [] [] [] none none none false))),
     (gs "email", .mk [] (some (.mk (some [gs "string"]) [] [] [] [] [] none none none false)))]
    none none none false

/-- The component map of the C8 scenario. -/
def userDocC8 : Option (List (GoStr × SchemaRef)) :=
  some [(gs "User", .mk [] (some userSchemaC8))]

/-- C8: every Field of every Model produced by extractModels satisfies
OmitEmpty equal to the negation of Required, and on an object schema with
required list id, name and an optional email property the extracted
fields carry OmitEmpty false for id and name and true for email. -/
theorem extractModels_omitEmpty_eq_not_required :
    (∀ (schemas : Option (List (GoStr × SchemaRef))) (m : Model) (f : Field),
        m ∈ extractModels schemas → f ∈ m.fields → f.omitEmpty = !f.required) ∧
    ((extractModels userDocC8).map (fun m =>
        m.fields.map (fun f => (f.jsonName, f.required, f.omitEmpty)))) =
      [[(gs "id", true, false), (gs "name", true, false), (gs "email", false, true)]] := by
  constructor
  · intro schemas m f hm hf
    cases schemas with
    | none => simp [extractModels] at hm
    | some l =>
      simp only [extractModels, List.mem_filterMap] at hm
      obtain ⟨p, hp, hpe⟩ := hm
      cases hv : p.2.value with
      | none => rw [hv] at hpe; simp at hpe
      | some v =>
        rw [hv] at hpe
        simp only [Option.some.injEq] at hpe
        subst hpe
        unfold schemaToModel at hf
        by_cases he : v.enum.length > 0
        · rw [if_pos he] at hf
          simp at hf
        · rw [if_neg he] at hf
          by_cases ho : typesIs v.type (gs "object") = true
          · rw [if_pos ho] at hf
            simp only [List.mem_filterMap] at hf
            obtain ⟨q, hq, hqe⟩ := hf
            cases hqv : q.2.value with
            | none => rw [hqv] at hqe; simp at hqe
            | some pv =>
              rw [hqv] at hqe
              simp only [Option.some.injEq] at hqe
              subst hqe
              rfl
          · rw [if_neg ho] at hf
            simp at hf
  · decide

/-- C8 witness input: the general invariant applied to the concrete User
document at the email field. -/
theorem extractModels_omitEmpty_concrete_email :
    ((extractModels userDocC8).head?.map (fun m =>
        m.fields.map (fun f => (f.jsonName, f.omitEmpty)))) =
      some [(gs "id", false), (gs "name", false), (gs "email", true)] := by
  decide

/-- A request body reference whose content has no application/json
entry. -/
def rbOnlyText : Option RequestBodyRef :=
  some { value := some {
    description := [],
    required := true,
    content := [(gs "text/plain", { schema := some (.mk (gs "#/components/schemas/T") none) })] } }

/-- A request body reference whose application/json entry carries no
schema. -/
def rbJsonNoSchema : Option RequestBodyRef :=
  some { value := some {
    description := [],
    required := true,
    content := [(gs "application/json", { schema := none })] } }

/-- A request body reference whose application/json entry carries a
reference schema. -/
def rbJsonUser : Option RequestBodyRef :=
  some { value := some {
    description := gs "the user",
    required := true,
    content := [(gs "application/json", { schema := some (.mk (gs "#/components/schemas/User") none) })] } }

/-- C10: the extracted RequestBody is present exactly when the source
request body is present with a value whose application/json content entry
carries a schema; an absent body, a body with only other content types,
and a schema-less json entry all yield none, and the positive case maps
the schema and carries the description and required flag. -/
theorem extractRequestBody_requires_json_schema :
    (∀ rb : Option RequestBodyRef,
        (extractRequestBody rb).isSome = true ↔
          ∃ rr v mt sref, rb = some rr ∧ rr.value = some v ∧
            v.content.lookup (gs "application/json") = some mt ∧
            mt.schema = some sref) ∧
    extractRequestBody none = none ∧
    extractRequestBody rbOnlyText = none ∧
    extractRequestBody rbJsonNoSchema = none ∧
    extractRequestBody rbJsonUser =
      some { type := gs "User", description := gs "the user", required := true } := by
  refine ⟨?_, by decide, by decide, by decide, by decide⟩
  intro rb
  constructor
  · intro h
    cases rb with
    | none => simp [extractRequestBody] at h
    | some rr =>
      cases hv : rr.value with
      | none => simp [extractRequestBody, hv] at h
      | some v =>
        cases hmt : v.content.lookup (gs "application/json") with
        | none => simp [extractRequestBody, hv, hmt] at h
        | some mt =>
          cases hsr : mt.schema with
          | none => simp [extractRequestBody, hv, hmt, hsr] at h
          | some sref => exact ⟨rr, v, mt, sref, rfl, hv, hmt, hsr⟩
  · intro h
    obtain ⟨rr, v, mt, sref, hrb, hv, hmt, hsr⟩ := h
    subst hrb
    simp [extractRequestBody, hv, hmt, hsr]

/-! ## Pluralisation round trip (C6) -/

theorem ew_last_false (t : GoStr) (a b : Char) (h : a ≠ b) :
    endsWith (t ++ [a]) [b] = false := by
  cases hh : endsWith (t ++ [a]) [b]
  · rfl
  · exact absurd ((endsWith_last t a b).mp hh) h

theorem ew_two_false (t : GoStr) (a b c : Char) (h : a ≠ c) :
    endsWith (t ++ [a]) [b, c] = false := by
  cases hh : endsWith (t ++ [a]) [b, c]
  · rfl
  · exfalso
    obtain ⟨r, hr⟩ := endsWith_iff.mp hh
    have := congrArg List.reverse hr
    simp at this
    exact h this.1

theorem endsWith_append_self (x u : GoStr) : endsWith (x ++ u) u = true := by
  have h := endsWith_cancel x [] u
  simp only [List.nil_append] at h
  rw [h]
  exact endsWith_nil x

theorem getD_concat_self (t : GoStr) (c d : Char) :
    (t ++ [c]).getD t.length d = c := by
  rw [List.getD_eq_getElem?_getD, List.getElem?_concat_length]
  rfl

/-- singularize on a word of the shape u ++ ies outside the irregular
table strips the ies and appends y. -/
theorem singularize_append_ies (u : GoStr)
    (hIrr : irregularSingulars.lookup (lowerStr (u ++ gs "ies")) = none) :
    singularize (u ++ gs "ies") = u ++ ['y'] := by
  have hne : (u ++ gs "ies").isEmpty = false := isEmpty_append_ne_nil (by decide)
  have hies : endsWith (u ++ gs "ies") (gs "ies") = true := endsWith_append_self u (gs "ies")
  have htake : (u ++ gs "ies").take ((u ++ gs "ies").length - 3) = u := by
    apply take_pre_length
    simp [gs]
  simp only [singularize, hne, hIrr, hies, htake]
  simp <;> rfl

/-- singularize on a word of the shape x ++ s where x ends in none of ie,
e or s strips the final s. -/
theorem singularize_append_s_plain (x : GoStr)
    (hIrr : irregularSingulars.lookup (lowerStr (x ++ gs "s")) = none)
    (hie : endsWith x (gs "ie") = false)
    (he : endsWith x (gs "e") = false)
    (hs : endsWith x (gs "s") = false) :
    singularize (x ++ gs "s") = x := by
  have hne : (x ++ gs "s").isEmpty = false := isEmpty_append_ne_nil (by decide)
  have h1 : endsWith (x ++ gs "s") (gs "ies") = false := by
    have h := endsWith_cancel x (gs "ie") (gs "s")
    rw [hie] at h
    exact h
  have h2 : endsWith (x ++ gs "s") (gs "es") = false := by
    have h := endsWith_cancel x (gs "e") (gs "s")
    rw [he] at h
    exact h
  have h3 : endsWith (x ++ gs "s") (gs "s") = true := endsWith_append_self x (gs "s")
  have h4 : endsWith (x ++ gs "s") (gs "ss") = false := by
    have h := endsWith_cancel x (gs "s") (gs "s")
    rw [hs] at h
    exact h
  have htake : (x ++ gs "s").take ((x ++ gs "s").length - 1) = x := by
    apply take_pre_length
    simp [gs]
  simp only [singularize, hne, hIrr, h1, h2, h3, h4, htake]
  simp

/-- singularize on a word of the shape u ++ es where u passes the base
suffix test of the es rule strips the es. -/
theorem singularize_append_es_base (u : GoStr)
    (hIrr : irregularSingulars.lookup (lowerStr (u ++ gs "es")) = none)
    (hi : endsWith u (gs "i") = false)
    (hbig : (endsWith u (gs "s") || endsWith u (gs "x") || endsWith u (gs "z") ||
             endsWith u (gs "ch") || endsWith u (gs "sh")) = true) :
    singularize (u ++ gs "es") = u := by
  have hne : (u ++ gs "es").isEmpty = false := isEmpty_append_ne_nil (by decide)
  have h1 : endsWith (u ++ gs "es") (gs "ies") = false := by
    have h := endsWith_cancel u (gs "i") (gs "es")
    rw [hi] at h
    exact h
  have h2 : endsWith (u ++ gs "es") (gs "es") = true := endsWith_append_self u (gs "es")
  have htake : (u ++ gs "es").take ((u ++ gs "es").length - 2) = u := by
    apply take_pre_length
    simp [gs]
  simp only [singularize, hne, hIrr, h1, h2, htake, hbig]
  simp

/-- singularize on a word of the shape u ++ e ++ s whose base u fails the
es-rule suffix test and which ends in neither ie nor a double s strips
only the final s. -/
theorem singularize_append_es_nobase (u : GoStr)
    (hIrr : irregularSingulars.lookup (lowerStr ((u ++ gs "e") ++ gs "s")) = none)
    (hie : endsWith (u ++ gs "e") (gs "ie") = false)
    (hbig : (endsWith u (gs "s") || endsWith u (gs "x") || endsWith u (gs "z") ||
             endsWith u (gs "ch") || endsWith u (gs "sh")) = false) :
    singularize ((u ++ gs "e") ++ gs "s") = u ++ gs "e" := by
  have hassoc : (u ++ gs "e") ++ gs "s" = u ++ gs "es" := by
    rw [List.append_assoc]
    rfl
  have hne : ((u ++ gs "e") ++ gs "s").isEmpty = false := by
    rw [hassoc]
    exact isEmpty_append_ne_nil (by decide)
  have h1 : endsWith ((u ++ gs "e") ++ gs "s") (gs "ies") = false := by
    have h := endsWith_cancel (u ++ gs "e") (gs "ie") (gs "s")
    rw [hie] at h
    exact h
  have h2 : endsWith ((u ++ gs "e") ++ gs "s") (gs "es") = true := by
    rw [hassoc]
    exact endsWith_append_self u (gs "es")
  have htake : ((u ++ gs "e") ++ gs "s").take (((u ++ gs "e") ++ gs "s").length - 2) = u := by
    rw [hassoc]
    apply take_pre_length
    simp [gs]
  have h3 : endsWith ((u ++ gs "e") ++ gs "s") (gs "s") = true :=
    endsWith_append_self (u ++ gs "e") (gs "s")
  have h4 : endsWith ((u ++ gs "e") ++ gs "s") (gs "ss") = false := by
    have h := endsWith_cancel (u ++ gs "e") (gs "s") (gs "s")
    have h5 : endsWith (u ++ gs "e") (gs "s") = false := ew_last_false u 'e' 's' (by decide)
    rw [h5] at h
    exact h
  have htake1 : ((u ++ gs "e") ++ gs "s").take (((u ++ gs "e") ++ gs "s").length - 1) =
      u ++ gs "e" := by
    apply take_pre_length
    simp [gs]
  simp only [singularize, hne, hIrr, h1, h2, htake, hbig, h3, h4, htake1]
  simp

/-- singularize on a word of the shape u ++ e ++ s whose base u passes
the es-rule suffix test strips the es. -/
theorem singularize_append_es_withbase (u : GoStr)
    (hIrr : irregularSingulars.lookup (lowerStr ((u ++ gs "e") ++ gs "s")) = none)
    (hie : endsWith (u ++ gs "e") (gs "ie") = false)
    (hbig : (endsWith u (gs "s") || endsWith u (gs "x") || endsWith u (gs "z") ||
             endsWith u (gs "ch") || endsWith u (gs "sh")) = true) :
    singularize ((u ++ gs "e") ++ gs "s") = u := by
  have hassoc : (u ++ gs "e") ++ gs "s" = u ++ gs "es" := by
    rw [List.append_assoc]
    rfl
  have hne : ((u ++ gs "e") ++ gs "s").isEmpty = false := by
    rw [hassoc]
    exact isEmpty_append_ne_nil (by decide)
  have h1 : endsWith ((u ++ gs "e") ++ gs "s") (gs "ies") = false := by
    have h := endsWith_cancel (u ++ gs "e") (gs "ie") (gs "s")
    rw [hie] at h
    exact h
  have h2 : endsWith ((u ++ gs "e") ++ gs "s") (gs "es") = true := by
    rw [hassoc]
    exact endsWith_append_self u (gs "es")
  have htake : ((u ++ gs "e") ++ gs "s").take (((u ++ gs "e") ++ gs "s").length - 2) = u := by
    rw [hassoc]
    apply take_pre_length
    simp [gs]
  simp only [singularize, hne, hIrr, h1, h2, htake, hbig]
  simp

/-- pluralize on a word ending in s, x, z, ch or sh appends es. -/
theorem pluralize_of_sfx5 (x : GoStr)
    (hbig : (endsWith x (gs "s") || endsWith x (gs "x") || endsWith x (gs "z") ||
             endsWith x (gs "ch") || endsWith x (gs "sh")) = true) :
    pluralize x = some (x ++ gs "es") := by
  have hx : ∃ t sfx, (sfx = gs "s" ∨ sfx = gs "x" ∨ sfx = gs "z" ∨ sfx = gs "ch" ∨
      sfx = gs "sh") ∧ x = t ++ sfx := by
    simp only [Bool.or_eq_true] at hbig
    rcases hbig with ((((h | h) | h) | h) | h) <;>
      obtain ⟨t, ht⟩ := endsWith_iff.mp h
    · exact ⟨t, gs "s", Or.inl rfl, ht⟩
    · exact ⟨t, gs "x", Or.inr (Or.inl rfl), ht⟩
    · exact ⟨t, gs "z", Or.inr (Or.inr (Or.inl rfl)), ht⟩
    · exact ⟨t, gs "ch", Or.inr (Or.inr (Or.inr (Or.inl rfl))), ht⟩
    · exact ⟨t, gs "sh", Or.inr (Or.inr (Or.inr (Or.inr rfl))), ht⟩
  obtain ⟨t, sfx, hsfx, hxd⟩ := hx
  have hIrrP : irregularPlurals.lookup (lowerStr x) = none := by
    rw [hxd]
    exact irrP_none_of_sfx t sfx hsfx
  have hne : x.isEmpty = false := by
    rw [hxd]
    apply isEmpty_append_ne_nil
    rcases hsfx with h | h | h | h | h <;> subst h <;> decide
  have hy : endsWith x (gs "y") = false := by
    rcases hsfx with h | h | h | h | h <;> subst h <;> rw [hxd]
    · exact ew_last_false t 's' 'y' (by decide)
    · exact ew_last_false t 'x' 'y' (by decide)
    · exact ew_last_false t 'z' 'y' (by decide)
    · have hca : t ++ gs "ch" = (t ++ ['c']) ++ ['h'] := by
        rw [List.append_assoc]
        rfl
      rw [hca]
      exact ew_last_false (t ++ ['c']) 'h' 'y' (by decide)
    · have hca : t ++ gs "sh" = (t ++ ['s']) ++ ['h'] := by
        rw [List.append_assoc]
        rfl
      rw [hca]
      exact ew_last_false (t ++ ['s']) 'h' 'y' (by decide)
  simp only [pluralize, hne, hIrrP, hy, pluralSuffixRules, hbig]
  simp

/-- pluralize on a word ending in the letter y preceded by a non-vowel
replaces the y by ies. -/
theorem pluralize_cons_y (u : GoStr) (hu : u ≠ [])
    (hvow : isVowel (u.getD (u.length - 1) ' ') = false) :
    pluralize (u ++ ['y']) = some (u ++ gs "ies") := by
  have hIrrP : irregularPlurals.lookup (lowerStr (u ++ ['y'])) = none :=
    irrP_none_of_endsY u
  have hne : (u ++ ['y']).isEmpty = false := isEmpty_append_ne_nil (by decide)
  have hy : endsWith (u ++ ['y']) (gs "y") = true := endsWith_append_self u ['y']
  have hulen : 0 < u.length := List.length_pos.mpr hu
  have hlen : ¬((u ++ ['y']).length < 2) := by
    simp only [List.length_append, List.length_cons, List.length_nil]
    omega
  have hget : (u ++ ['y']).getD ((u ++ ['y']).length - 2) ' ' = u.getD (u.length - 1) ' ' := by
    have hidx : (u ++ ['y']).length - 2 = u.length - 1 := by
      simp only [List.length_append, List.length_cons, List.length_nil]
      omega
    rw [hidx, List.getD_eq_getElem?_getD, List.getD_eq_getElem?_getD,
      List.getElem?_append_left (by omega)]
  have htake : (u ++ ['y']).take ((u ++ ['y']).length - 1) = u := by
    apply take_pre_length
    simp
  simp only [pluralize, hne, hIrrP, hy, if_neg hlen, hget, hvow, htake]
  simp <;> rfl

theorem bool_not_true {b : Bool} (h : ¬(b = true)) : b = false := by
  cases b
  · rfl
  · exact absurd rfl h

/-- The branch structure of pluralize outside the empty and irregular
cases. -/
theorem pluralize_eq_branches (s : GoStr) (hne : s.isEmpty = false)
    (hIrr : irregularPlurals.lookup (lowerStr s) = none) :
    pluralize s =
      if endsWith s (gs "y") then
        if s.length < 2 then none
        else if !isVowel (s.getD (s.length - 2) ' ') then
          some (s.take (s.length - 1) ++ gs "ies")
        else some (pluralSuffixRules s)
      else some (pluralSuffixRules s) := by
  simp only [pluralize, hne, hIrr]
  simp

/-- C6 as amended: outside the irregular tables, pluralize inverts
singularize on every regular plural whose source word does not end in a
vowel followed by ie (nor is the bare word ie), and the two irregular
tables are exactly mutually inverse, both on the lower-case pairs and on
their leading-capital forms. -/
theorem pluralize_singularize_roundtrip :
    (∀ (x w : GoStr),
        irregularPlurals.lookup (lowerStr x) = none →
        pluralize x = some w →
        irregularSingulars.lookup (lowerStr w) = none →
        (endsWith x (gs "ie") = true →
          ∃ t c, x = t ++ [c, 'i', 'e'] ∧ isVowel c = false) →
        pluralize (singularize w) = some w) ∧
    (∀ p ∈ irregularPlurals,
        pluralize p.1 = some p.2 ∧ singularize p.2 = p.1 ∧
        pluralize (capFirst p.1) = some (capFirst p.2) ∧
        singularize (capFirst p.2) = capFirst p.1) := by
  constructor
  · intro x w hIrrP hplu hIrrS hexcl
    cases x with
    | nil =>
      have hw : w = [] := by
        have hh : pluralize ([] : GoStr) = some [] := rfl
        rw [hh] at hplu
        exact (Option.some.inj hplu).symm
      subst hw
      rfl
    | cons a as =>
      have hplu0 := hplu
      have hne : (a :: as).isEmpty = false := rfl
      rw [pluralize_eq_branches (a :: as) hne hIrrP] at hplu
      by_cases hy : endsWith (a :: as) (gs "y") = true
      · rw [if_pos hy] at hplu
        obtain ⟨t, hxd⟩ := endsWith_iff.mp hy
        by_cases hlen : (a :: as).length < 2
        · rw [if_pos hlen] at hplu
          exact absurd hplu (by simp)
        · rw [if_neg hlen] at hplu
          by_cases hvow : isVowel ((a :: as).getD ((a :: as).length - 2) ' ') = true
          · -- vowel before the final y: the plural appends s
            rw [hvow] at hplu
            simp only [Bool.not_true, Bool.false_eq_true, if_false] at hplu
            have hs1 : endsWith (a :: as) (gs "s") = false := by
              rw [hxd]
              exact ew_last_false t 'y' 's' (by decide)
            have hs2 : endsWith (a :: as) (gs "x") = false := by
              rw [hxd]
              exact ew_last_false t 'y' 'x' (by decide)
            have hs3 : endsWith (a :: as) (gs "z") = false := by
              rw [hxd]
              exact ew_last_false t 'y' 'z' (by decide)
            have hs4 : endsWith (a :: as) (gs "ch") = false := by
              rw [hxd]
              exact ew_two_false t 'y' 'c' 'h' (by decide)
            have hs5 : endsWith (a :: as) (gs "sh") = false := by
              rw [hxd]
              exact ew_two_false t 'y' 's' 'h' (by decide)
            have hpsr : pluralSuffixRules (a :: as) = (a :: as) ++ gs "s" := by
              simp only [pluralSuffixRules, hs1, hs2, hs3, hs4, hs5]
              simp
            rw [hpsr] at hplu
            have hw : w = (a :: as) ++ gs "s" := (Option.some.inj hplu).symm
            have hie : endsWith (a :: as) (gs "ie") = false := by
              rw [hxd]
              exact ew_two_false t 'y' 'i' 'e' (by decide)
            have he : endsWith (a :: as) (gs "e") = false := by
              rw [hxd]
              exact ew_last_false t 'y' 'e' (by decide)
            have hsing : singularize w = a :: as := by
              rw [hw]
              exact singularize_append_s_plain (a :: as) (by rw [← hw]; exact hIrrS)
                hie he hs1
            rw [hsing]
            exact hplu0
          · -- consonant before the final y: the plural rewrites y to ies
            have hvf : isVowel ((a :: as).getD ((a :: as).length - 2) ' ') = false :=
              bool_not_true hvow
            rw [hvf] at hplu
            simp only [Bool.not_false, if_true] at hplu
            have htake : (a :: as).take ((a :: as).length - 1) = t := by
              rw [hxd]
              apply take_pre_length
              simp [gs]
            rw [htake] at hplu
            have hw : w = t ++ gs "ies" := (Option.some.inj hplu).symm
            have hsing : singularize w = t ++ ['y'] := by
              rw [hw]
              exact singularize_append_ies t (by rw [← hw]; exact hIrrS)
            rw [hsing]
            have hxy : a :: as = t ++ ['y'] := hxd
            rw [← hxy, hplu0, hw]
      · rw [if_neg hy] at hplu
        have hyf : endsWith (a :: as) (gs "y") = false := bool_not_true hy
        by_cases hbig : (endsWith (a :: as) (gs "s") || endsWith (a :: as) (gs "x") ||
            endsWith (a :: as) (gs "z") || endsWith (a :: as) (gs "ch") ||
            endsWith (a :: as) (gs "sh")) = true
        · -- the word takes the es rule
          have hpsr : pluralSuffixRules (a :: as) = (a :: as) ++ gs "es" := by
            simp only [pluralSuffixRules, hbig]
            simp
          rw [hpsr] at hplu
          have hw : w = (a :: as) ++ gs "es" := (Option.some.inj hplu).symm
          have hi : endsWith (a :: as) (gs "i") = false := by
            simp only [Bool.or_eq_true] at hbig
            rcases hbig with ((((h | h) | h) | h) | h) <;>
              obtain ⟨t, ht⟩ := endsWith_iff.mp h <;> rw [ht]
            · exact ew_last_false t 's' 'i' (by decide)
            · exact ew_last_false t 'x' 'i' (by decide)
            · exact ew_last_false t 'z' 'i' (by decide)
            · have hca : t ++ gs "ch" = (t ++ ['c']) ++ ['h'] := by
                rw [List.append_assoc]
                rfl
              rw [hca]
              exact ew_last_false (t ++ ['c']) 'h' 'i' (by decide)
            · have hca : t ++ gs "sh" = (t ++ ['s']) ++ ['h'] := by
                rw [List.append_assoc]
                rfl
              rw [hca]
              exact ew_last_false (t ++ ['s']) 'h' 'i' (by decide)
          have hsing : singularize w = a :: as := by
            rw [hw]
            exact singularize_append_es_base (a :: as) (by rw [← hw]; exact hIrrS) hi hbig
          rw [hsing]
          exact hplu0
        · -- the word takes the plain s rule
          have hbigf : (endsWith (a :: as) (gs "s") || endsWith (a :: as) (gs "x") ||
              endsWith (a :: as) (gs "z") || endsWith (a :: as) (gs "ch") ||
              endsWith (a :: as) (gs "sh")) = false := bool_not_true hbig
          have hpsr : pluralSuffixRules (a :: as) = (a :: as) ++ gs "s" := by
            simp only [pluralSuffixRules, hbigf]
            simp
          rw [hpsr] at hplu
          have hw : w = (a :: as) ++ gs "s" := (Option.some.inj hplu).symm
          have hsf : endsWith (a :: as) (gs "s") = false := by
            cases hh : endsWith (a :: as) (gs "s")
            · rfl
            · exfalso
              apply hbig
              rw [hh]
              simp
          by_cases hie2 : endsWith (a :: as) (gs "ie") = true
          · -- ends in consonant plus ie by the exclusion hypothesis
            obtain ⟨t, c, hxd, hcons⟩ := hexcl hie2
            have hxu : a :: as = (t ++ [c]) ++ gs "ie" := by
              rw [hxd, List.append_assoc]
              rfl
            have hwu : w = (t ++ [c]) ++ gs "ies" := by
              rw [hw, hxu, List.append_assoc]
              rfl
            have hsing : singularize w = (t ++ [c]) ++ ['y'] := by
              rw [hwu]
              exact singularize_append_ies (t ++ [c]) (by rw [← hwu]; exact hIrrS)
            rw [hsing, hwu]
            apply pluralize_cons_y (t ++ [c]) (by simp)
            have hgd : (t ++ [c]).getD ((t ++ [c]).length - 1) ' ' = c := by
              have hl : (t ++ [c]).length - 1 = t.length := by
                simp
              rw [hl]
              exact getD_concat_self t c ' '
            rw [hgd]
            exact hcons
          · have hie2f : endsWith (a :: as) (gs "ie") = false := bool_not_true hie2
            by_cases he2 : endsWith (a :: as) (gs "e") = true
            · obtain ⟨u, hxe⟩ := endsWith_iff.mp he2
              have hwu : w = (u ++ gs "e") ++ gs "s" := by
                rw [hw, hxe]
              by_cases hbase : (endsWith u (gs "s") || endsWith u (gs "x") ||
                  endsWith u (gs "z") || endsWith u (gs "ch") || endsWith u (gs "sh")) = true
              · have hsing : singularize w = u := by
                  rw [hwu]
                  exact singularize_append_es_withbase u (by rw [← hwu]; exact hIrrS)
                    (by rw [← hxe]; exact hie2f) hbase
                rw [hsing]
                rw [pluralize_of_sfx5 u hbase]
                rw [hwu, List.append_assoc]
                rfl
              · have hbasef : (endsWith u (gs "s") || endsWith u (gs "x") ||
                    endsWith u (gs "z") || endsWith u (gs "ch") ||
                    endsWith u (gs "sh")) = false := bool_not_true hbase
                have hsing : singularize w = u ++ gs "e" := by
                  rw [hwu]
                  exact singularize_append_es_nobase u (by rw [← hwu]; exact hIrrS)
                    (by rw [← hxe]; exact hie2f) hbasef
                rw [hsing, ← hxe]
                exact hplu0
            · have he2f : endsWith (a :: as) (gs "e") = false := bool_not_true he2
              have hsing : singularize w = a :: as := by
                rw [hw]
                exact singularize_append_s_plain (a :: as) (by rw [← hw]; exact hIrrS)
                  hie2f he2f hsf
              rw [hsing]
              exact hplu0
  · decide

/-- C6 counterexample: aies is a regular plural (of aie, a word in
neither irregular table), yet the round trip returns ays: singularize
strips the ies suffix of aies to ay, whose vowel-y plural appends a plain
s.  The bare word ie fares even worse: its plural ies singularizes to the
single letter y, on which pluralize indexes out of range, a Go panic. -/
theorem pluralize_singularize_roundtrip_cex :
    pluralize (gs "aie") = some (gs "aies") ∧
    irregularPlurals.lookup (lowerStr (gs "aie")) = none ∧
    irregularSingulars.lookup (lowerStr (gs "aies")) = none ∧
    pluralize (singularize (gs "aies")) = some (gs "ays") ∧
    gs "ays" ≠ gs "aies" ∧
    pluralize (gs "ie") = some (gs "ies") ∧
    singularize (gs "ies") = gs "y" ∧
    pluralize (gs "y") = none := by
  decide

/-- C6 witness: the round trip applied to the regular plural churches of
church, a word outside both irregular tables not ending in ie, together
with the child and children pair of the irregular tables. -/
theorem pluralize_singularize_roundtrip_witness :
    pluralize (singularize (gs "churches")) = some (gs "churches") :=
  pluralize_singularize_roundtrip.1 (gs "church") (gs "churches")
    (by decide) (by decide) (by decide)
    (fun h => absurd h (by decide))

/-! ## Case-conversion idempotence (C7) -/

/-- Every character of the word is lower case. -/
def allLower (w : GoStr) : Prop := ∀ c ∈ w, c.isLower = true

/-- Every character of the word is upper case. -/
def allUpper (w : GoStr) : Prop := ∀ c ∈ w, c.isUpper = true

/-- Every character of the word is a letter. -/
def allAlpha (w : GoStr) : Prop := ∀ c ∈ w, c.isAlpha = true

theorem isDigit_false_of_isAlpha {c : Char} (h : c.isAlpha = true) :
    c.isDigit = false := by
  simp only [Char.isAlpha, Bool.or_eq_true] at h
  by_contra hne
  have hd : c.isDigit = true := by
    cases hh : c.isDigit
    · exact absurd hh hne
    · rfl
  simp only [Char.isDigit, Bool.and_eq_true, decide_eq_true_eq] at hd
  have hd1 : 48 ≤ c.toNat := hd.1
  have hd2 : c.toNat ≤ 57 := hd.2
  rcases h with h | h
  · obtain ⟨h1, h2⟩ := isUpper_toNat h
    omega
  · obtain ⟨h1, h2⟩ := isLower_toNat h
    omega

theorem toUpper_toLower_eq_toUpper (c : Char) : (c.toLower).toUpper = c.toUpper := by
  cases hu : c.isUpper
  · rw [toLower_toNat_of_not_isUpper hu]
  · rw [toUpper_toLower hu, toUpper_of_isUpper hu]

theorem upperStr_lowerStr (w : GoStr) : upperStr (lowerStr w) = upperStr w := by
  simp only [upperStr, lowerStr, List.map_map]
  apply List.map_congr_left
  intro c _
  exact toUpper_toLower_eq_toUpper c

theorem upperStr_of_allUpper {w : GoStr} (h : allUpper w) : upperStr w = w := by
  simp only [upperStr]
  calc w.map Char.toUpper = w.map id :=
        List.map_congr_left fun c hc => toUpper_of_isUpper (h c hc)
    _ = w := List.map_id w

theorem lowerStr_of_allLower {w : GoStr} (h : allLower w) : lowerStr w = w := by
  simp only [lowerStr]
  calc w.map Char.toLower = w.map id :=
        List.map_congr_left fun c hc => toLower_of_isLower (h c hc)
    _ = w := List.map_id w

theorem allUpper_upperStr {w : GoStr} (h : allAlpha w) : allUpper (upperStr w) := by
  intro c hc
  simp only [upperStr, List.mem_map] at hc
  obtain ⟨a, ha, rfl⟩ := hc
  exact isAlpha_toUpper (h a ha)

theorem allLower_lowerStr {w : GoStr} (h : allAlpha w) : allLower (lowerStr w) := by
  intro c hc
  simp only [lowerStr, List.mem_map] at hc
  obtain ⟨a, ha, rfl⟩ := hc
  exact isAlpha_toLower (h a ha)

theorem allAlpha_of_allUpper {w : GoStr} (h : allUpper w) : allAlpha w :=
  fun c hc => isAlpha_of_isUpper (h c hc)

theorem allAlpha_of_allLower {w : GoStr} (h : allLower w) : allAlpha w :=
  fun c hc => isAlpha_of_isLower (h c hc)

/-- Consuming a run of lower-case letters never splits: each one extends the
current word and becomes the new previous character. -/
theorem scanLowers (ls : GoStr) (h : allLower ls) :
    ∀ (prev : Option Char) (cur rest : GoStr),
    splitWordsAux prev cur (ls ++ rest) =
      splitWordsAux (ls.foldl (fun _ c => some c) prev) (cur ++ ls) rest := by
  induction ls with
  | nil => intro prev cur rest; simp
  | cons l ls ih =>
    intro prev cur rest
    have hl : l.isLower = true := h l (List.mem_cons_self l ls)
    have htail : allLower ls := fun c hc => h c (List.mem_cons_of_mem _ hc)
    have hu : l.isUpper = false := not_isUpper_of_isLower hl
    have ha : l.isAlpha = true := isAlpha_of_isLower hl
    have hstep : splitWordsAux prev cur ((l :: ls) ++ rest) =
        splitWordsAux (some l) (cur ++ [l]) (ls ++ rest) := by
      cases prev with
      | none => simp [splitWordsAux, ha]
      | some p => simp [splitWordsAux, ha, hu]
    rw [hstep, ih htail (some l) (cur ++ [l]) rest, List.append_assoc]
    simp

/-- Consuming a run of upper-case letters splits nothing when the previous
character is not lower case and the character after the run, if any, is not
lower case either. -/
theorem scanUppers (W : GoStr) (h : allUpper W) :
    ∀ (prev : Option Char), (∀ p, prev = some p → p.isLower = false) →
    ∀ (cur rest : GoStr), (∀ r rs, rest = r :: rs → r.isLower = false) →
    splitWordsAux prev cur (W ++ rest) =
      splitWordsAux (W.foldl (fun _ c => some c) prev) (cur ++ W) rest := by
  induction W with
  | nil => intro prev _ cur rest _; simp
  | cons U W ih =>
    intro prev hprev cur rest hrest
    have hU : U.isUpper = true := h U (List.mem_cons_self U W)
    have htail : allUpper W := fun c hc => h c (List.mem_cons_of_mem _ hc)
    have ha : U.isAlpha = true := isAlpha_of_isUpper hU
    have hstep : splitWordsAux prev cur ((U :: W) ++ rest) =
        splitWordsAux (some U) (cur ++ [U]) (W ++ rest) := by
      cases prev with
      | none =>
        cases W with
        | nil =>
          cases rest with
          | nil => simp [splitWordsAux, ha]
          | cons r rs => simp [splitWordsAux, ha]
        | cons V W2 => simp [splitWordsAux, ha]
      | some p =>
        have hp : p.isLower = false := hprev p rfl
        cases W with
        | nil =>
          cases hre : rest with
          | nil => simp [splitWordsAux, ha, hp]
          | cons r rs =>
            have hr : r.isLower = false := hrest r rs hre
            simp [splitWordsAux, ha, hp, hr]
        | cons V W2 =>
          have hV : V.isLower = false :=
            not_isLower_of_isUpper (htail V (List.mem_cons_self V W2))
          simp [splitWordsAux, ha, hp, hV]
    rw [hstep,
      ih htail (some U) (fun p hp => by cases hp; exact not_isLower_of_isUpper hU)
        (cur ++ [U]) rest hrest,
      List.append_assoc]
    simp

theorem foldl_some_concat (ls : GoStr) (c : Char) :
    ∀ (prev : Option Char), (ls ++ [c]).foldl (fun _ x => some x) prev = some c := by
  induction ls with
  | nil => intro prev; rfl
  | cons a as ih => intro prev; exact ih (some a)

/-- Terminal step of the scanner on a non-empty accumulated word. -/
theorem splitFlushEnd (prev : Option Char) (cur : GoStr) (h : cur ≠ []) :
    splitWordsAux prev cur [] = [cur] := by
  have : cur.isEmpty = false := by cases cur with | nil => exact absurd rfl h | cons a as => rfl
  simp [splitWordsAux, this]

/-- First step of the scanner: at position zero there is no boundary and a
letter simply opens the current word. -/
theorem splitStep_first (U : Char) (rest : GoStr) (ha : U.isAlpha = true) :
    splitWordsAux none [] (U :: rest) = splitWordsAux (some U) [U] rest := by
  simp [splitWordsAux, ha]

/-- Boundary step driven by a lower-case previous character. -/
theorem splitStep_prev (p U : Char) (cur rest : GoStr)
    (hU : U.isUpper = true) (hp : p.isLower = true) (hcur : cur ≠ []) :
    splitWordsAux (some p) cur (U :: rest) =
      cur :: splitWordsAux (some U) [U] rest := by
  have ha := isAlpha_of_isUpper hU
  have hce : cur.isEmpty = false := by
    cases cur with | nil => exact absurd rfl hcur | cons a as => rfl
  cases rest with
  | nil => simp [splitWordsAux, ha, hU, hp, hce]
  | cons n rs2 => simp [splitWordsAux, ha, hU, hp, hce]

/-- Boundary step driven by a lower-case next character. -/
theorem splitStep_next (p U n : Char) (cur rs2 : GoStr)
    (hU : U.isUpper = true) (hn : n.isLower = true) (hcur : cur ≠ []) :
    splitWordsAux (some p) cur (U :: n :: rs2) =
      cur :: splitWordsAux (some U) [U] (n :: rs2) := by
  have ha := isAlpha_of_isUpper hU
  have hce : cur.isEmpty = false := by
    cases cur with | nil => exact absurd rfl hcur | cons a as => rfl
  simp [splitWordsAux, ha, hU, hn, hce]

/-- A capitalised part: an upper-case letter followed by a non-empty run of
lower-case letters, whose upper-cased form is not in the acronym table. -/
def IsCapPart (p : GoStr) : Prop :=
  ∃ U ls, p = U :: ls ∧ U.isUpper = true ∧ ls ≠ [] ∧ allLower ls ∧
    acronyms.contains (upperStr p) = false

/-- An all-upper part (an acronym or a bare initial). -/
def IsUpPart (p : GoStr) : Prop := p ≠ [] ∧ allUpper p

/-- Well-formed tail of a part chain: capitalised and all-upper parts, where
an all-upper part is final or followed by a capitalised part. -/
inductive ChainTail : List GoStr → Prop
  | nil : ChainTail []
  | cap (q : GoStr) (ps : List GoStr) : IsCapPart q → ChainTail ps →
      ChainTail (q :: ps)
  | upNil (q : GoStr) : IsUpPart q → ChainTail [q]
  | upCap (q q2 : GoStr) (ps : List GoStr) : IsUpPart q → IsCapPart q2 →
      ChainTail (q2 :: ps) → ChainTail (q :: q2 :: ps)

theorem not_up_of_cap {p : GoStr} (hc : IsCapPart p) (hu : IsUpPart p) : False := by
  obtain ⟨U, ls, rfl, hU, hne, hlo, _⟩ := hc
  cases ls with
  | nil => exact hne rfl
  | cons a as =>
    have h1 : a.isLower = true := hlo a (List.mem_cons_self a as)
    have h2 : a.isUpper = true := hu.2 a (by simp)
    rw [not_isLower_of_isUpper h2] at h1
    exact Bool.false_ne_true h1

theorem exists_concat_of_ne_nil {q : GoStr} (h : q ≠ []) :
    ∃ q1 c, q = q1 ++ [c] := by
  rcases List.eq_nil_or_concat q with h0 | ⟨q1, c, hc⟩
  · exact absurd h0 h
  · exact ⟨q1, c, by simpa [List.concat_eq_append] using hc⟩

/-- scanUppers specialised to a run at the end of the input. -/
theorem scanUppersNil (W : GoStr) (h : allUpper W) (prev : Option Char)
    (hprev : ∀ p, prev = some p → p.isLower = false) (cur : GoStr) :
    splitWordsAux prev cur W =
      splitWordsAux (W.foldl (fun _ c => some c) prev) (cur ++ W) [] := by
  have := scanUppers W h prev hprev cur [] (fun r rs hr => by cases hr)
  simpa using this

/-- Main scanner lemma: with a non-empty current word ending in character c,
a well-formed chain tail is split into exactly its parts (the condition on c
only matters when the chain starts with an all-upper part). -/
theorem toksGo (ps : List GoStr) (hch : ChainTail ps) :
    ∀ (cur : GoStr) (c : Char),
    (∀ q qs, ps = q :: qs → IsUpPart q → c.isLower = true) →
    splitWordsAux (some c) (cur ++ [c]) ps.flatten = (cur ++ [c]) :: ps := by
  induction hch with
  | nil =>
    intro cur c _
    simpa using splitFlushEnd (some c) (cur ++ [c]) (by simp)
  | cap q ps hq hps ih =>
    intro cur c _
    obtain ⟨U, ls, rfl, hU, hne, hlo, hacr⟩ := hq
    obtain ⟨ls1, cl, hdec⟩ := exists_concat_of_ne_nil hne
    have hcl : cl.isLower = true := hlo cl (by rw [hdec]; simp)
    cases ls with
    | nil => exact absurd rfl hne
    | cons n ls2 =>
      have hn : n.isLower = true := hlo n (List.mem_cons_self n ls2)
      rw [show ((U :: n :: ls2) :: ps).flatten = U :: n :: (ls2 ++ ps.flatten)
        from by simp]
      rw [splitStep_next c U n (cur ++ [c]) (ls2 ++ ps.flatten) hU hn (by simp)]
      have e2 := scanLowers (n :: ls2) hlo (some U) [U] ps.flatten
      rw [List.cons_append] at e2
      rw [e2, hdec, foldl_some_concat]
      have e3 : ([U] : GoStr) ++ (ls1 ++ [cl]) = (U :: ls1) ++ [cl] := by simp
      rw [e3, ih (U :: ls1) cl (fun _ _ _ _ => hcl)]
      simp
  | upNil q hq =>
    intro cur c hcond
    have hc : c.isLower = true := hcond q [] rfl hq
    obtain ⟨hne, hupp⟩ := hq
    cases q with
    | nil => exact absurd rfl hne
    | cons U0 Wt =>
      have hU0 : U0.isUpper = true := hupp U0 (List.mem_cons_self U0 Wt)
      have hWt : allUpper Wt := fun x hx => hupp x (List.mem_cons_of_mem _ hx)
      rw [show ([U0 :: Wt] : List GoStr).flatten = U0 :: Wt from by simp]
      rw [splitStep_prev c U0 (cur ++ [c]) Wt hU0 hc (by simp)]
      rw [scanUppersNil Wt hWt (some U0)
        (fun p hp => by cases hp; exact not_isLower_of_isUpper hU0) [U0]]
      rw [splitFlushEnd _ _ (by simp)]
      simp
  | upCap q q2 ps hq hq2 hch2 ih =>
    intro cur c hcond
    have hc : c.isLower = true := hcond q (q2 :: ps) rfl hq
    obtain ⟨hne, hupp⟩ := hq
    obtain ⟨U2, ls2, rfl, hU2, hne2, hlo2, hacr2⟩ := hq2
    cases q with
    | nil => exact absurd rfl hne
    | cons U0 Wt =>
      have hU0 : U0.isUpper = true := hupp U0 (List.mem_cons_self U0 Wt)
      have hWt : allUpper Wt := fun x hx => hupp x (List.mem_cons_of_mem _ hx)
      have hrest : ∀ r rs, ((U2 :: ls2) :: ps).flatten = r :: rs →
          r.isLower = false := by
        intro r rs hr
        rw [show ((U2 :: ls2) :: ps).flatten = U2 :: (ls2 ++ ps.flatten)
          from by simp] at hr
        injection hr with h1 _
        rw [← h1]
        exact not_isLower_of_isUpper hU2
      rw [show ((U0 :: Wt) :: (U2 :: ls2) :: ps).flatten =
        U0 :: (Wt ++ ((U2 :: ls2) :: ps).flatten) from by simp]
      rw [splitStep_prev c U0 (cur ++ [c]) (Wt ++ ((U2 :: ls2) :: ps).flatten)
        hU0 hc (by simp)]
      rw [scanUppers Wt hWt (some U0)
        (fun p hp => by cases hp; exact not_isLower_of_isUpper hU0)
        [U0] (((U2 :: ls2) :: ps).flatten) hrest]
      obtain ⟨q1, cW, hdec⟩ := exists_concat_of_ne_nil
        (show U0 :: Wt ≠ [] by simp)
      have hfold : Wt.foldl (fun _ x => some x) (some U0) = some cW := by
        have h1 : (U0 :: Wt).foldl (fun _ x => some x) none = some cW := by
          rw [hdec]; exact foldl_some_concat q1 cW none
        simpa using h1
      have hcW : cW.isLower = false := by
        have : cW.isUpper = true := hupp cW (by rw [hdec]; simp)
        exact not_isLower_of_isUpper this
      have hcond2 : ∀ q' qs', (U2 :: ls2) :: ps = q' :: qs' →
          IsUpPart q' → cW.isLower = true := by
        intro q' qs' heq hup
        injection heq with h1 _
        rw [← h1] at hup
        exact (not_up_of_cap ⟨U2, ls2, rfl, hU2, hne2, hlo2, hacr2⟩ hup).elim
      rw [hfold, show ([U0] : GoStr) ++ Wt = U0 :: Wt from by simp, hdec,
        ih q1 cW hcond2, ← hdec]

/-- A well-formed chain is tokenized into exactly its parts. -/
theorem toksChain (ps : List GoStr) (hch : ChainTail ps) :
    splitWords ps.flatten = ps := by
  cases hch with
  | nil => rfl
  | cap q ps hq hps =>
    obtain ⟨U, ls, rfl, hU, hne, hlo, hacr⟩ := hq
    obtain ⟨ls1, cl, hdec⟩ := exists_concat_of_ne_nil hne
    have hcl : cl.isLower = true := hlo cl (by rw [hdec]; simp)
    rw [show ((U :: ls) :: ps).flatten = U :: (ls ++ ps.flatten) from by simp]
    rw [splitWords, splitStep_first U (ls ++ ps.flatten) (isAlpha_of_isUpper hU)]
    rw [scanLowers ls hlo (some U) [U] ps.flatten, hdec, foldl_some_concat]
    rw [show ([U] : GoStr) ++ (ls1 ++ [cl]) = (U :: ls1) ++ [cl] from by simp]
    rw [toksGo ps hps (U :: ls1) cl (fun _ _ _ _ => hcl)]
    simp
  | upNil q hq =>
    obtain ⟨hne, hupp⟩ := hq
    cases q with
    | nil => exact absurd rfl hne
    | cons U0 Wt =>
      have hU0 : U0.isUpper = true := hupp U0 (List.mem_cons_self U0 Wt)
      have hWt : allUpper Wt := fun x hx => hupp x (List.mem_cons_of_mem _ hx)
      rw [show ([U0 :: Wt] : List GoStr).flatten = U0 :: Wt from by simp]
      rw [splitWords, splitStep_first U0 Wt (isAlpha_of_isUpper hU0)]
      rw [scanUppersNil Wt hWt (some U0)
        (fun p hp => by cases hp; exact not_isLower_of_isUpper hU0) [U0]]
      rw [splitFlushEnd _ _ (by simp)]
      simp
  | upCap q q2 ps hq hq2 hch2 =>
    obtain ⟨hne, hupp⟩ := hq
    obtain ⟨U2, ls2, rfl, hU2, hne2, hlo2, hacr2⟩ := hq2
    cases q with
    | nil => exact absurd rfl hne
    | cons U0 Wt =>
      have hU0 : U0.isUpper = true := hupp U0 (List.mem_cons_self U0 Wt)
      have hWt : allUpper Wt := fun x hx => hupp x (List.mem_cons_of_mem _ hx)
      have hrest : ∀ r rs, ((U2 :: ls2) :: ps).flatten = r :: rs →
          r.isLower = false := by
        intro r rs hr
        rw [show ((U2 :: ls2) :: ps).flatten = U2 :: (ls2 ++ ps.flatten)
          from by simp] at hr
        injection hr with h1 _
        rw [← h1]
        exact not_isLower_of_isUpper hU2
      rw [show ((U0 :: Wt) :: (U2 :: ls2) :: ps).flatten =
        U0 :: (Wt ++ ((U2 :: ls2) :: ps).flatten) from by simp]
      rw [splitWords, splitStep_first U0 (Wt ++ ((U2 :: ls2) :: ps).flatten)
        (isAlpha_of_isUpper hU0)]
      rw [scanUppers Wt hWt (some U0)
        (fun p hp => by cases hp; exact not_isLower_of_isUpper hU0)
        [U0] (((U2 :: ls2) :: ps).flatten) hrest]
      obtain ⟨q1, cW, hdec⟩ := exists_concat_of_ne_nil
        (show U0 :: Wt ≠ [] by simp)
      have hfold : Wt.foldl (fun _ x => some x) (some U0) = some cW := by
        have h1 : (U0 :: Wt).foldl (fun _ x => some x) none = some cW := by
          rw [hdec]; exact foldl_some_concat q1 cW none
        simpa using h1
      have hcond2 : ∀ q' qs', (U2 :: ls2) :: ps = q' :: qs' →
          IsUpPart q' → cW.isLower = true := by
        intro q' qs' heq hup
        injection heq with h1 _
        rw [← h1] at hup
        exact (not_up_of_cap ⟨U2, ls2, rfl, hU2, hne2, hlo2, hacr2⟩ hup).elim
      rw [hfold, show ([U0] : GoStr) ++ Wt = U0 :: Wt from by simp, hdec,
        toksGo ((U2 :: ls2) :: ps) hch2 q1 cW hcond2, ← hdec]

/-- A chain headed by a non-empty all-lower word then a well-formed tail is
tokenized into the word followed by the parts. -/
theorem toksLowChain (w : GoStr) (hw : w ≠ []) (hlo : allLower w)
    (ps : List GoStr) (hch : ChainTail ps) :
    splitWords (w ++ ps.flatten) = w :: ps := by
  obtain ⟨w1, cl, hdec⟩ := exists_concat_of_ne_nil hw
  have hcl : cl.isLower = true := hlo cl (by rw [hdec]; simp)
  rw [splitWords]
  have e1 := scanLowers w hlo none [] ps.flatten
  rw [e1, hdec, foldl_some_concat, List.nil_append]
  rw [toksGo ps hch w1 cl (fun _ _ _ _ => hcl)]

theorem toUpper_toUpper (c : Char) : (c.toUpper).toUpper = c.toUpper := by
  cases hl : c.isLower
  · rw [toUpper_of_not_isLower hl, toUpper_of_not_isLower hl]
  · exact toUpper_of_isUpper (isUpper_toUpper hl)

theorem acr_mem_min_len {w : GoStr} (h : w ∈ acronyms) : 2 ≤ w.length := by
  simp only [acronyms, List.mem_cons, List.not_mem_nil, or_false] at h
  rcases h with rfl | rfl | rfl | rfl | rfl | rfl | rfl <;> decide

theorem acr_single_false (c : Char) : acronyms.contains [c] = false := by
  cases hc : acronyms.contains [c] with
  | false => rfl
  | true =>
    have hm : [c] ∈ acronyms := List.mem_of_elem_eq_true hc
    have := acr_mem_min_len hm
    simp at this

/-- On a non-empty all-letter word, renderWord reduces to the acronym test
followed by capitalisation (the digit branch never fires). -/
theorem renderWord_alpha {w : GoStr} (hne : w ≠ []) (ha : allAlpha w) :
    renderWord w =
      if acronyms.contains (upperStr w) then upperStr w else capWord w := by
  cases w with
  | nil => exact absurd rfl hne
  | cons c0 cs =>
    have hd : c0.isDigit = false :=
      isDigit_false_of_isAlpha (ha c0 (List.mem_cons_self c0 cs))
    by_cases hacr : acronyms.contains (upperStr (c0 :: cs)) = true
    · have hmem : upperStr (c0 :: cs) ∈ acronyms := List.mem_of_elem_eq_true hacr
      simp [renderWord, hmem, hd]
    · have hnmem : upperStr (c0 :: cs) ∉ acronyms := fun hm =>
        hacr (List.elem_eq_true_of_mem hm)
      simp [renderWord, hnmem, hd]

/-- Shape of every part emitted by renderWord on a letter word: an acronym
from the table, or a capitalised word whose upper-cased form is not in the
table (with a possibly empty lower tail). -/
def RenderedPart (p : GoStr) : Prop :=
  (IsUpPart p ∧ acronyms.contains p = true) ∨
  (∃ U ls, p = U :: ls ∧ U.isUpper = true ∧ allLower ls ∧
    acronyms.contains (upperStr p) = false)

theorem renderWord_part {w : GoStr} (hne : w ≠ []) (ha : allAlpha w) :
    RenderedPart (renderWord w) := by
  rw [renderWord_alpha hne ha]
  by_cases hacr : acronyms.contains (upperStr w) = true
  · rw [if_pos hacr]
    refine Or.inl ⟨⟨?_, allUpper_upperStr ha⟩, hacr⟩
    cases w with
    | nil => exact absurd rfl hne
    | cons a l => simp [upperStr]
  · have hacr' : acronyms.contains (upperStr w) = false := by
      cases h2 : acronyms.contains (upperStr w) with
      | false => rfl
      | true => exact absurd h2 hacr
    rw [if_neg hacr]
    right
    cases w with
    | nil => exact absurd rfl hne
    | cons c0 cs =>
      refine ⟨c0.toUpper, lowerStr cs, rfl,
        isAlpha_toUpper (ha c0 (List.mem_cons_self c0 cs)),
        allLower_lowerStr (fun c hc => ha c (List.mem_cons_of_mem _ hc)), ?_⟩
      have e : upperStr (c0.toUpper :: lowerStr cs) = upperStr (c0 :: cs) := by
        simp only [upperStr, lowerStr, List.map_cons]
        rw [toUpper_toUpper]
        have := upperStr_lowerStr cs
        simp only [upperStr, lowerStr] at this
        rw [this]
      show acronyms.contains (upperStr (c0.toUpper :: lowerStr cs)) = false
      rw [e]
      exact hacr'

/-- Parts whose rendering is the identity. -/
def FixedPart (p : GoStr) : Prop :=
  IsCapPart p ∨ (IsUpPart p ∧ (acronyms.contains p = true ∨ p.length = 1))

theorem allAlpha_of_cap {p : GoStr} (h : IsCapPart p) : allAlpha p := by
  obtain ⟨U, ls, rfl, hU, _, hlo, _⟩ := h
  intro c hc
  rcases List.mem_cons.mp hc with rfl | hc
  · exact isAlpha_of_isUpper hU
  · exact isAlpha_of_isLower (hlo c hc)

theorem allAlpha_of_upOrCap {p : GoStr} (h : IsUpPart p ∨ IsCapPart p) :
    allAlpha p := by
  rcases h with ⟨_, hupp⟩ | hc
  · exact allAlpha_of_allUpper hupp
  · exact allAlpha_of_cap hc

theorem ne_nil_of_upOrCap {p : GoStr} (h : IsUpPart p ∨ IsCapPart p) :
    p ≠ [] := by
  rcases h with ⟨hne, _⟩ | ⟨U, ls, rfl, _⟩
  · exact hne
  · simp

theorem capWord_upper_head {U : Char} (ls : GoStr) (hU : U.isUpper = true) :
    capWord (U :: ls) = U :: lowerStr ls := by
  simp [capWord, toUpper_of_isUpper hU]

theorem renderWord_fixed {p : GoStr} (h : FixedPart p) : renderWord p = p := by
  rcases h with hcap | ⟨hup, hc⟩
  · have ha := allAlpha_of_cap hcap
    obtain ⟨U, ls, rfl, hU, hne, hlo, hacr⟩ := hcap
    have hnot : ¬ acronyms.contains (upperStr (U :: ls)) = true := fun hm => by
      rw [hacr] at hm; exact Bool.false_ne_true hm
    rw [renderWord_alpha (by simp) ha, if_neg hnot,
      capWord_upper_head ls hU, lowerStr_of_allLower hlo]
  · have hne := hup.1
    have ha := allAlpha_of_allUpper hup.2
    rw [renderWord_alpha hne ha, upperStr_of_allUpper hup.2]
    rcases hc with hc | hc
    · rw [if_pos hc]
    · cases p with
      | nil => exact absurd rfl hne
      | cons U cs =>
        have hcs : cs = [] := by
          simp only [List.length_cons] at hc
          exact List.eq_nil_of_length_eq_zero (by omega)
        subst hcs
        have hU : U.isUpper = true := hup.2 U (List.mem_cons_self U [])
        have hnot : ¬ acronyms.contains [U] = true := fun hm => by
          rw [acr_single_false U] at hm; exact Bool.false_ne_true hm
        rw [if_neg hnot, capWord_upper_head [] hU]
        rfl

/-- Rendering the all-lowered form of a capitalised part restores the part. -/
theorem renderWord_lower_cap {U : Char} {ls : GoStr} (hU : U.isUpper = true)
    (hlo : allLower ls)
    (hacr : acronyms.contains (upperStr (U :: ls)) = false) :
    renderWord (U.toLower :: ls) = U :: ls := by
  have ha : allAlpha (U.toLower :: ls) := by
    intro c hc
    rcases List.mem_cons.mp hc with rfl | hc
    · exact isAlpha_of_isLower (isLower_toLower hU)
    · exact isAlpha_of_isLower (hlo c hc)
  have e : upperStr (U.toLower :: ls) = upperStr (U :: ls) := by
    simp only [upperStr, List.map_cons]
    rw [toUpper_toLower_eq_toUpper]
  rw [renderWord_alpha (by simp) ha, e,
    if_neg (fun hm => by rw [hacr] at hm; exact Bool.false_ne_true hm)]
  simp only [capWord, toUpper_toLower hU, lowerStr_of_allLower hlo]

/-- Rendering the all-lowered form of a fixed all-upper part restores it. -/
theorem renderWord_lower_up {W : GoStr} (hup : IsUpPart W)
    (hfix : acronyms.contains W = true ∨ W.length = 1) :
    renderWord (lowerStr W) = W := by
  have hne : lowerStr W ≠ [] := by
    cases W with
    | nil => exact absurd rfl hup.1
    | cons a l => simp [lowerStr]
  have ha : allAlpha (lowerStr W) :=
    allAlpha_of_allLower (allLower_lowerStr (allAlpha_of_allUpper hup.2))
  rw [renderWord_alpha hne ha, upperStr_lowerStr, upperStr_of_allUpper hup.2]
  rcases hfix with hc | hc
  · rw [if_pos hc]
  · cases W with
    | nil => exact absurd rfl hup.1
    | cons U cs =>
      have hcs : cs = [] := by
        simp only [List.length_cons] at hc
        exact List.eq_nil_of_length_eq_zero (by omega)
      subst hcs
      have hU : U.isUpper = true := hup.2 U (List.mem_cons_self U [])
      have hnot : ¬ acronyms.contains [U] = true := fun hm => by
        rw [acr_single_false U] at hm; exact Bool.false_ne_true hm
      rw [if_neg hnot]
      simp [lowerStr, capWord, toUpper_toLower hU]

/-- Boolean test for a non-empty all-upper part. -/
def isUpW (p : GoStr) : Bool := !p.isEmpty && p.all Char.isUpper

/-- Merge maximal runs of adjacent all-upper parts into single parts,
accumulating the current part. -/
def mergeAux (acc : GoStr) : List GoStr → List GoStr
  | [] => [acc]
  | q :: rest =>
    if isUpW acc && isUpW q then mergeAux (acc ++ q) rest
    else acc :: mergeAux q rest

theorem isUpW_of_up {p : GoStr} (h : IsUpPart p) : isUpW p = true := by
  obtain ⟨hne, hupp⟩ := h
  cases p with
  | nil => exact absurd rfl hne
  | cons a l =>
    simp [isUpW, List.all_eq_true]
    exact ⟨hupp a (List.mem_cons_self a l),
      fun c hc => hupp c (List.mem_cons_of_mem _ hc)⟩

theorem up_of_isUpW {p : GoStr} (h : isUpW p = true) : IsUpPart p := by
  cases p with
  | nil => exact absurd h (by simp [isUpW])
  | cons a l =>
    refine ⟨by simp, ?_⟩
    intro c hc
    have h2 : ∀ x ∈ a :: l, x.isUpper = true := by
      simpa [isUpW, List.all_eq_true] using h
    exact h2 c hc

theorem up_append {p q : GoStr} (hp : IsUpPart p) (hq : IsUpPart q) :
    IsUpPart (p ++ q) := by
  refine ⟨fun hx => hq.1 (List.append_eq_nil.mp hx).2, ?_⟩
  intro c hc
  rcases List.mem_append.mp hc with hc | hc
  · exact hp.2 c hc
  · exact hq.2 c hc

/-- Merging adjacent all-upper parts yields a well-formed chain with the
same character content. -/
theorem mergeAux_chain : ∀ (ps : List GoStr) (acc : GoStr),
    (IsUpPart acc ∨ IsCapPart acc) →
    (∀ p ∈ ps, IsUpPart p ∨ IsCapPart p) →
    ChainTail (mergeAux acc ps) ∧
      (mergeAux acc ps).flatten = acc ++ ps.flatten := by
  intro ps
  induction ps with
  | nil =>
    intro acc hacc _
    refine ⟨?_, by simp [mergeAux]⟩
    rcases hacc with h | h
    · exact ChainTail.upNil acc h
    · exact ChainTail.cap acc [] h ChainTail.nil
  | cons q rest ih =>
    intro acc hacc hps
    have hq : IsUpPart q ∨ IsCapPart q := hps q (List.mem_cons_self q rest)
    have hrest : ∀ p ∈ rest, IsUpPart p ∨ IsCapPart p :=
      fun p hp => hps p (List.mem_cons_of_mem _ hp)
    cases hcond : isUpW acc && isUpW q with
    | true =>
      obtain ⟨h1, h2⟩ : isUpW acc = true ∧ isUpW q = true := by simpa using hcond
      have hup : IsUpPart (acc ++ q) :=
        up_append (up_of_isUpW h1) (up_of_isUpW h2)
      have hh := ih (acc ++ q) (Or.inl hup) hrest
      rw [show mergeAux acc (q :: rest) = mergeAux (acc ++ q) rest from by
        simp [mergeAux, hcond]]
      exact ⟨hh.1, by rw [hh.2]; simp⟩
    | false =>
      have hh := ih q hq hrest
      rw [show mergeAux acc (q :: rest) = acc :: mergeAux q rest from by
        simp [mergeAux, hcond]]
      refine ⟨?_, by simp [hh.2]⟩
      rcases hacc with haccUp | haccCap
      · have hqW : isUpW q = false := by
          have h1 : isUpW acc = true := isUpW_of_up haccUp
          cases h2 : isUpW q with
          | false => rfl
          | true =>
            rw [h1, h2] at hcond
            exact absurd hcond (by decide)
        have hqcap : IsCapPart q := by
          rcases hq with h | h
          · rw [isUpW_of_up h] at hqW
            exact absurd hqW (by decide)
          · exact h
        obtain ⟨tl, htl⟩ : ∃ tl, mergeAux q rest = q :: tl := by
          cases rest with
          | nil => exact ⟨[], rfl⟩
          | cons r rest2 =>
            have hc2 : (isUpW q && isUpW r) = false := by
              rw [hqW]; rfl
            exact ⟨mergeAux r rest2, by simp [mergeAux, hc2]⟩
        rw [htl]
        exact ChainTail.upCap acc q tl haccUp hqcap (htl ▸ hh.1)
      · exact ChainTail.cap acc _ haccCap hh.1

/-- Rendering an all-upper part yields either a fixed all-upper part or a
fixed capitalised part. -/
theorem renderWord_up_cases {W : GoStr} (hup : IsUpPart W) :
    (IsUpPart (renderWord W) ∧ FixedPart (renderWord W)) ∨
    (IsCapPart (renderWord W) ∧ FixedPart (renderWord W)) := by
  have hne := hup.1
  have ha := allAlpha_of_allUpper hup.2
  cases hacr : acronyms.contains W with
  | true =>
    have hfix : FixedPart W := Or.inr ⟨hup, Or.inl hacr⟩
    rw [renderWord_fixed hfix]
    exact Or.inl ⟨hup, hfix⟩
  | false =>
    have hrw : renderWord W = capWord W := by
      rw [renderWord_alpha hne ha, upperStr_of_allUpper hup.2]
      exact if_neg (fun hm => by rw [hacr] at hm; exact Bool.false_ne_true hm)
    cases W with
    | nil => exact absurd rfl hne
    | cons U cs =>
      have hU : U.isUpper = true := hup.2 U (List.mem_cons_self U cs)
      rw [hrw, capWord_upper_head cs hU]
      cases cs with
      | nil =>
        simp only [lowerStr, List.map_nil]
        have h1 : IsUpPart [U] :=
          ⟨by simp, fun c hc => (List.mem_singleton.mp hc) ▸ hU⟩
        exact Or.inl ⟨h1, Or.inr ⟨h1, Or.inr rfl⟩⟩
      | cons a cs2 =>
        right
        have hcsup : allUpper (a :: cs2) :=
          fun c hc => hup.2 c (List.mem_cons_of_mem _ hc)
        have hlo : allLower (lowerStr (a :: cs2)) :=
          allLower_lowerStr (allAlpha_of_allUpper hcsup)
        have hlne : lowerStr (a :: cs2) ≠ [] := by simp [lowerStr]
        have hacr2 :
            acronyms.contains (upperStr (U :: lowerStr (a :: cs2))) = false := by
          have e1 : upperStr (U :: lowerStr (a :: cs2)) =
              U.toUpper :: upperStr (lowerStr (a :: cs2)) := by
            simp [upperStr]
          rw [e1, toUpper_of_isUpper hU, upperStr_lowerStr,
            upperStr_of_allUpper hcsup]
          exact hacr
        have h1 : IsCapPart (U :: lowerStr (a :: cs2)) :=
          ⟨U, lowerStr (a :: cs2), rfl, hU, hlne, hlo, hacr2⟩
        exact ⟨h1, Or.inl h1⟩

/-- Rendering a well-formed chain part-wise yields a well-formed chain of
fixed parts. -/
theorem mapRender_chain (ms : List GoStr) (hch : ChainTail ms) :
    ChainTail (ms.map renderWord) ∧ ∀ p ∈ ms.map renderWord, FixedPart p := by
  induction hch with
  | nil => exact ⟨ChainTail.nil, by simp⟩
  | cap q ps hq hps ih =>
    have hfq : FixedPart q := Or.inl hq
    have hrq : renderWord q = q := renderWord_fixed hfq
    rw [List.map_cons, hrq]
    refine ⟨ChainTail.cap q _ hq ih.1, ?_⟩
    intro p hp
    rcases List.mem_cons.mp hp with rfl | hp
    · exact hfq
    · exact ih.2 p hp
  | upNil q hq =>
    rcases renderWord_up_cases hq with ⟨h1, h2⟩ | ⟨h1, h2⟩
    · refine ⟨ChainTail.upNil _ h1, ?_⟩
      intro p hp
      rcases List.mem_singleton.mp (by simpa using hp) with rfl
      exact h2
    · refine ⟨ChainTail.cap _ [] h1 ChainTail.nil, ?_⟩
      intro p hp
      rcases List.mem_singleton.mp (by simpa using hp) with rfl
      exact h2
  | upCap q q2 ps hq hq2 hch2 ih =>
    have hfq2 : FixedPart q2 := Or.inl hq2
    have hrq2 : renderWord q2 = q2 := renderWord_fixed hfq2
    have hm2 : (q2 :: ps).map renderWord = q2 :: ps.map renderWord := by
      rw [List.map_cons, hrq2]
    have hmem : ∀ p ∈ (q :: q2 :: ps).map renderWord, FixedPart p := by
      intro p hp
      rw [List.map_cons] at hp
      rcases List.mem_cons.mp hp with rfl | hp
      · rcases renderWord_up_cases hq with ⟨_, h2⟩ | ⟨_, h2⟩ <;> exact h2
      · exact ih.2 p hp
    refine ⟨?_, hmem⟩
    rw [List.map_cons, hm2]
    rcases renderWord_up_cases hq with ⟨h1, _⟩ | ⟨h1, _⟩
    · exact ChainTail.upCap _ q2 _ h1 hq2 (hm2 ▸ ih.1)
    · exact ChainTail.cap _ _ h1 (hm2 ▸ ih.1)

theorem upOrCap_of_fixed {p : GoStr} (h : FixedPart p) :
    IsUpPart p ∨ IsCapPart p := by
  rcases h with h | ⟨h, _⟩
  · exact Or.inr h
  · exact Or.inl h

theorem upOrCap_of_rendered {p : GoStr} (h : RenderedPart p) :
    IsUpPart p ∨ IsCapPart p := by
  rcases h with ⟨h, _⟩ | ⟨U, ls, rfl, hU, hlo, hacr⟩
  · exact Or.inl h
  · cases ls with
    | nil =>
      exact Or.inl ⟨by simp, fun c hc => (List.mem_singleton.mp hc) ▸ hU⟩
    | cons a l =>
      exact Or.inr ⟨U, a :: l, rfl, hU, by simp, hlo, hacr⟩

theorem dropWhile_false {p : Char → Bool} {s : GoStr}
    (h : ∀ c ∈ s, p c = false) : s.dropWhile p = s := by
  cases s with
  | nil => rfl
  | cons a l => simp [List.dropWhile_cons, h a (List.mem_cons_self a l)]

theorem isSpaceGo_false_of_isAlpha {c : Char} (h : c.isAlpha = true) :
    isSpaceGo c = false := by
  have h65 : 65 ≤ c.toNat := by
    simp only [Char.isAlpha, Bool.or_eq_true] at h
    rcases h with h | h
    · exact (isUpper_toNat h).1
    · have := (isLower_toNat h).1
      omega
  have hne : ∀ (d : Char), d.toNat < 65 → decide (c = d) = false := by
    intro d hd
    simp only [decide_eq_false_iff_not]
    intro h'
    rw [h'] at h65
    omega
  simp only [isSpaceGo]
  rw [hne ' ' (by decide), hne '\t' (by decide), hne '\n' (by decide),
    hne '\x0b' (by decide), hne '\x0c' (by decide), hne '\r' (by decide)]
  rfl

theorem trimSpace_id {s : GoStr} (h : ∀ c ∈ s, isSpaceGo c = false) :
    trimSpace s = s := by
  rw [trimSpace, dropWhile_false h,
    dropWhile_false (fun c hc => h c (List.mem_reverse.mp hc)),
    List.reverse_reverse]

/-- On space-free input, toPascalCase is the flattened part-wise rendering of
the word split. -/
theorem toPascal_words {s : GoStr} (hs : ∀ c ∈ s, c.isAlpha = true ∨ c = '_') :
    toPascalCase s = ((splitWords s).map renderWord).flatten := by
  have ht : trimSpace s = s := trimSpace_id (fun c hc => by
    rcases hs c hc with h | rfl
    · exact isSpaceGo_false_of_isAlpha h
    · decide)
  simp only [toPascalCase, ht]
  cases s with
  | nil => rfl
  | cons a l => rfl

/-- Words produced by the scanner on identifier characters are non-empty and
consist of letters only. -/
theorem splitWordsAux_alpha :
    ∀ (rest : GoStr), (∀ c ∈ rest, c.isAlpha = true ∨ c = '_') →
    ∀ (prev : Option Char) (cur : GoStr), allAlpha cur →
    ∀ w ∈ splitWordsAux prev cur rest, w ≠ [] ∧ allAlpha w := by
  intro rest
  induction rest with
  | nil =>
    intro _ prev cur hcur w hw
    cases cur with
    | nil => simp [splitWordsAux] at hw
    | cons a l =>
      simp [splitWordsAux] at hw
      subst hw
      exact ⟨by simp, hcur⟩
  | cons r rs ih =>
    intro h prev cur hcur w hw
    have hrs : ∀ c ∈ rs, c.isAlpha = true ∨ c = '_' :=
      fun c hc => h c (List.mem_cons_of_mem _ hc)
    have hcurcases : ∀ v ∈ (if cur.isEmpty then ([] : List GoStr) else [cur]),
        v ≠ [] ∧ allAlpha v := by
      intro v hv
      cases cur with
      | nil => simp at hv
      | cons a l =>
        simp at hv
        subst hv
        exact ⟨by simp, hcur⟩
    rcases h r (List.mem_cons_self r rs) with hra | hru
    · have hcond : (r.isAlpha || r.isDigit) = true := by rw [hra]; rfl
      simp only [splitWordsAux, hcond, if_true] at hw
      split at hw
      · rename_i hb
        have hcne : cur ≠ [] := by
          intro hx
          rw [hx] at hb
          simp at hb
        rcases List.mem_append.mp hw with hw | hw
        · rcases List.mem_singleton.mp hw with rfl
          exact ⟨hcne, hcur⟩
        · exact ih hrs (some r) ([] ++ [r])
            (by intro c hc; simp at hc; subst hc; exact hra) w hw
      · simp only [List.nil_append] at hw
        refine ih hrs (some r) (cur ++ [r]) ?_ w hw
        intro c hc
        rcases List.mem_append.mp hc with hc | hc
        · exact hcur c hc
        · rcases List.mem_singleton.mp hc with rfl
          exact hra
    · subst hru
      have hcond : (('_' : Char).isAlpha || ('_' : Char).isDigit) = false := by
        decide
      have hupf : ('_' : Char).isUpper = false := by decide
      cases prev with
      | none =>
        simp only [splitWordsAux, hcond] at hw
        simp at hw
        rcases hw with ⟨hv1, rfl⟩ | hw
        · exact ⟨hv1, hcur⟩
        · exact ih hrs (some '_') [] (by intro c hc; simp at hc) w hw
      | some pv =>
        simp only [splitWordsAux, hcond, hupf] at hw
        simp at hw
        rcases hw with ⟨hv1, rfl⟩ | hw
        · exact ⟨hv1, hcur⟩
        · exact ih hrs (some '_') [] (by intro c hc; simp at hc) w hw

theorem findIdx_shift (p : Char → Bool) :
    ∀ (t : GoStr), (∀ c ∈ t, p c = false) →
    ∀ (r : GoStr), (t ++ r).findIdx? p = (r.findIdx? p).map (· + t.length) := by
  intro t
  induction t with
  | nil =>
    intro _ r
    simp
  | cons a l ih =>
    intro ht r
    have ha : p a = false := ht a (List.mem_cons_self a l)
    rw [List.cons_append, List.findIdx?_cons, ha]
    simp only [Bool.false_eq_true, if_false]
    rw [List.findIdx?_succ]
    rw [ih (fun c hc => ht c (List.mem_cons_of_mem _ hc)) r]
    cases h : r.findIdx? p with
    | none => simp
    | some v =>
      simp
      omega

theorem findIdx_none_of_false (p : Char → Bool) (t : GoStr)
    (ht : ∀ c ∈ t, p c = false) : t.findIdx? p = none := by
  have := findIdx_shift p t ht []
  simpa using this

theorem pascal_good (ps : List GoStr) (hch : ChainTail ps)
    (hfix : ∀ p ∈ ps, FixedPart p) :
    toPascalCase ps.flatten = ps.flatten := by
  have halpha : ∀ c ∈ ps.flatten, c.isAlpha = true ∨ c = '_' := by
    intro c hc
    obtain ⟨p, hp, hcp⟩ := List.mem_flatten.mp hc
    exact Or.inl (allAlpha_of_upOrCap (upOrCap_of_fixed (hfix p hp)) c hcp)
  rw [toPascal_words halpha, toksChain ps hch]
  have hmap : ps.map renderWord = ps := by
    calc ps.map renderWord = ps.map id :=
          List.map_congr_left fun p hp => renderWord_fixed (hfix p hp)
      _ = ps := List.map_id ps
  rw [hmap]

theorem toksLow_single (w : GoStr) (hw : w ≠ []) (hlo : allLower w) :
    splitWords w = [w] := by
  have := toksLowChain w hw hlo [] ChainTail.nil
  simpa using this

/-- Applying toPascalCase after the camel-case adjustment of a fixed chain
restores the chain. -/
theorem pascal_camel_good (ps : List GoStr) (hch : ChainTail ps)
    (hfix : ∀ p ∈ ps, FixedPart p) :
    toPascalCase (camelAdjust ps.flatten) = ps.flatten := by
  have hmapfix : ∀ (qs : List GoStr), (∀ p ∈ qs, FixedPart p) →
      qs.map renderWord = qs := fun qs h => by
    calc qs.map renderWord = qs.map id :=
          List.map_congr_left fun p hp => renderWord_fixed (h p hp)
      _ = qs := List.map_id qs
  cases hch with
  | nil => rfl
  | cap q ps1 hq hps1 =>
    obtain ⟨U, ls, rfl, hU, hne, hlo, hacr⟩ := hq
    cases ls with
    | nil => exact absurd rfl hne
    | cons n ls2 =>
      have hfixtail : ∀ p ∈ ps1, FixedPart p :=
        fun p hp => hfix p (List.mem_cons_of_mem _ hp)
      have hnlow : n.isLower = true := hlo n (List.mem_cons_self n ls2)
      have hUnl : U.isLower = false := not_isLower_of_isUpper hU
      rw [show ((U :: n :: ls2) :: ps1).flatten = U :: n :: (ls2 ++ ps1.flatten)
        from by simp]
      have hfli : firstLowerIdx (U :: n :: (ls2 ++ ps1.flatten)) = some 1 := by
        simp [firstLowerIdx, List.findIdx?_cons, List.findIdx?_succ, hUnl, hnlow]
      have hca : camelAdjust (U :: n :: (ls2 ++ ps1.flatten)) =
          (U.toLower :: n :: ls2) ++ ps1.flatten := by
        simp [camelAdjust, hfli, lowerStr]
      rw [hca]
      have halpha : ∀ c ∈ (U.toLower :: n :: ls2) ++ ps1.flatten,
          c.isAlpha = true ∨ c = '_' := by
        intro c hc
        left
        rcases List.mem_append.mp hc with hc | hc
        · rcases List.mem_cons.mp hc with rfl | hc
          · exact isAlpha_of_isLower (isLower_toLower hU)
          · exact isAlpha_of_isLower (hlo c hc)
        · obtain ⟨p, hp, hcp⟩ := List.mem_flatten.mp hc
          exact allAlpha_of_upOrCap (upOrCap_of_fixed (hfixtail p hp)) c hcp
      rw [toPascal_words halpha]
      have hlow : allLower (U.toLower :: n :: ls2) := by
        intro c hc
        rcases List.mem_cons.mp hc with rfl | hc
        · exact isLower_toLower hU
        · exact hlo c hc
      rw [toksLowChain _ (by simp) hlow ps1 hps1]
      rw [List.map_cons, renderWord_lower_cap hU hlo hacr, hmapfix ps1 hfixtail]
      simp
  | upNil q hq =>
    obtain ⟨hne, hupp⟩ := hq
    rw [show ([q] : List GoStr).flatten = q from by simp]
    have hfln : firstLowerIdx q = none :=
      findIdx_none_of_false _ q (fun c hc => not_isLower_of_isUpper (hupp c hc))
    have hca : camelAdjust q = lowerStr q := by
      cases q with
      | nil => exact absurd rfl hne
      | cons a l => simp [camelAdjust, hfln]
    rw [hca]
    have hlo : allLower (lowerStr q) :=
      allLower_lowerStr (allAlpha_of_allUpper hupp)
    have hlne : lowerStr q ≠ [] := by
      cases q with
      | nil => exact absurd rfl hne
      | cons a l => simp [lowerStr]
    have halpha : ∀ c ∈ lowerStr q, c.isAlpha = true ∨ c = '_' :=
      fun c hc => Or.inl (isAlpha_of_isLower (hlo c hc))
    have hfq : acronyms.contains q = true ∨ q.length = 1 := by
      rcases hfix q (List.mem_cons_self q []) with hcap | ⟨_, hcond⟩
      · exact (not_up_of_cap hcap ⟨hne, hupp⟩).elim
      · exact hcond
    rw [toPascal_words halpha, toksLow_single (lowerStr q) hlne hlo]
    rw [show ([lowerStr q] : List GoStr).map renderWord =
      [renderWord (lowerStr q)] from rfl]
    rw [renderWord_lower_up ⟨hne, hupp⟩ hfq]
    simp
  | upCap q q2 ps1 hq hq2 hch2 =>
    obtain ⟨hne, hupp⟩ := hq
    obtain ⟨U2, ls2, rfl, hU2, hne2, hlo2, hacr2⟩ := hq2
    cases ls2 with
    | nil => exact absurd rfl hne2
    | cons n2 ls22 =>
      have hn2 : n2.isLower = true := hlo2 n2 (List.mem_cons_self n2 ls22)
      have hqnl : ∀ c ∈ q, (fun c => c.isLower) c = false :=
        fun c hc => not_isLower_of_isUpper (hupp c hc)
      have hqlen : 1 ≤ q.length := by
        cases q with
        | nil => exact absurd rfl hne
        | cons a l => simp
      rw [show (q :: (U2 :: n2 :: ls22) :: ps1).flatten =
        q ++ ((U2 :: n2 :: ls22) :: ps1).flatten from by simp]
      have hfli : firstLowerIdx (q ++ ((U2 :: n2 :: ls22) :: ps1).flatten) =
          some (1 + q.length) := by
        rw [firstLowerIdx, findIdx_shift _ q hqnl]
        rw [show ((U2 :: n2 :: ls22) :: ps1).flatten =
          U2 :: n2 :: (ls22 ++ ps1.flatten) from by simp]
        simp [List.findIdx?_cons, List.findIdx?_succ,
          not_isLower_of_isUpper hU2, hn2]
      have hpne : (q ++ ((U2 :: n2 :: ls22) :: ps1).flatten).isEmpty = false := by
        cases q with
        | nil => exact absurd rfl hne
        | cons a l => rfl
      have hca : camelAdjust (q ++ ((U2 :: n2 :: ls22) :: ps1).flatten) =
          lowerStr q ++ ((U2 :: n2 :: ls22) :: ps1).flatten := by
        simp only [camelAdjust, hpne, Bool.false_eq_true, if_false, hfli]
        rw [if_neg (by omega), if_pos (by omega)]
        have e1 : 1 + q.length - 1 = q.length := by omega
        rw [e1, take_pre_length q _ q.length rfl, List.drop_left]
      rw [hca]
      have hfixtail : ∀ p ∈ (U2 :: n2 :: ls22) :: ps1, FixedPart p :=
        fun p hp => hfix p (List.mem_cons_of_mem _ hp)
      have hlo : allLower (lowerStr q) :=
        allLower_lowerStr (allAlpha_of_allUpper hupp)
      have hlne : lowerStr q ≠ [] := by
        cases q with
        | nil => exact absurd rfl hne
        | cons a l => simp [lowerStr]
      have halpha : ∀ c ∈ lowerStr q ++ ((U2 :: n2 :: ls22) :: ps1).flatten,
          c.isAlpha = true ∨ c = '_' := by
        intro c hc
        left
        rcases List.mem_append.mp hc with hc | hc
        · exact isAlpha_of_isLower (hlo c hc)
        · obtain ⟨p, hp, hcp⟩ := List.mem_flatten.mp hc
          exact allAlpha_of_upOrCap (upOrCap_of_fixed (hfixtail p hp)) c hcp
      have hfq : acronyms.contains q = true ∨ q.length = 1 := by
        rcases hfix q (List.mem_cons_self q _) with hcap | ⟨_, hcond⟩
        · exact (not_up_of_cap hcap ⟨hne, hupp⟩).elim
        · exact hcond
      rw [toPascal_words halpha, toksLowChain _ hlne hlo _ hch2]
      rw [List.map_cons, renderWord_lower_up ⟨hne, hupp⟩ hfq,
        hmapfix _ hfixtail]
      simp

/-- C7 (amended): on valid Go identifiers containing no decimal digit, the
composition toCamelCase ∘ toPascalCase is idempotent: applying it twice
yields the same string as applying it once. -/
theorem toCamelCase_idempotent_on_digitfree_identifiers (s : GoStr)
    (hne : s ≠ []) (hhead : s.headI.isAlpha = true ∨ s.headI = '_')
    (hchars : ∀ c ∈ s, c.isAlpha = true ∨ c = '_') :
    toCamelCase (toPascalCase (toCamelCase (toPascalCase s))) =
      toCamelCase (toPascalCase s) := by
  have hwords : ∀ w ∈ splitWords s, w ≠ [] ∧ allAlpha w :=
    splitWordsAux_alpha s hchars none []
      (fun c hc => absurd hc (List.not_mem_nil c))
  have hP1 : toPascalCase s = ((splitWords s).map renderWord).flatten :=
    toPascal_words hchars
  have hparts0 : ∀ p ∈ (splitWords s).map renderWord,
      IsUpPart p ∨ IsCapPart p := by
    intro p hp
    obtain ⟨w, hw, rfl⟩ := List.mem_map.mp hp
    exact upOrCap_of_rendered (renderWord_part (hwords w hw).1 (hwords w hw).2)
  show camelAdjust (toPascalCase (toPascalCase (camelAdjust
      (toPascalCase (toPascalCase s))))) =
    camelAdjust (toPascalCase (toPascalCase s))
  cases hsw : (splitWords s).map renderWord with
  | nil =>
    rw [hP1, hsw]
    rfl
  | cons p0 pt =>
    have hup0 : IsUpPart p0 ∨ IsCapPart p0 :=
      hparts0 p0 (by rw [hsw]; exact List.mem_cons_self p0 pt)
    have hupt : ∀ p ∈ pt, IsUpPart p ∨ IsCapPart p :=
      fun p hp => hparts0 p (by rw [hsw]; exact List.mem_cons_of_mem _ hp)
    obtain ⟨hchm, hflm⟩ := mergeAux_chain pt p0 hup0 hupt
    obtain ⟨hchg, hfixg⟩ := mapRender_chain _ hchm
    have halpha1 : ∀ c ∈ ((p0 :: pt) : List GoStr).flatten,
        c.isAlpha = true ∨ c = '_' := by
      intro c hc
      obtain ⟨p, hp, hcp⟩ := List.mem_flatten.mp hc
      have hp' : p ∈ (splitWords s).map renderWord := by rw [hsw]; exact hp
      exact Or.inl (allAlpha_of_upOrCap (hparts0 p hp') c hcp)
    have hP2 : toPascalCase (toPascalCase s) =
        ((mergeAux p0 pt).map renderWord).flatten := by
      rw [hP1, hsw, toPascal_words halpha1]
      have e : ((p0 :: pt) : List GoStr).flatten = (mergeAux p0 pt).flatten := by
        rw [hflm]; simp
      rw [e, toksChain _ hchm]
    rw [hP2, pascal_camel_good _ hchg hfixg, pascal_good _ hchg hfixg]

/-- C7: counterexample to the claimed unconditional idempotence on valid Go
identifiers.  The identifier _1idD is valid (leading underscore, then a
digit and letters), one application of toCamelCase ∘ toPascalCase gives
1idd, but a second application gives 1Idd: the digit prefix keeps the
letter run id together with the following letters on the first pass, the
rule set upper-cases the acronym ID, and the camel adjustment then lowers
the whole string, so the second pass re-tokenizes 1idd differently and
capitalises Idd. -/
theorem toCamelCase_idempotence_cex :
    (∀ c ∈ gs "_1idD", c.isAlpha = true ∨ c.isDigit = true ∨ c = '_') ∧
    ((gs "_1idD").headI.isAlpha = true ∨ (gs "_1idD").headI = '_') ∧
    toCamelCase (toPascalCase (gs "_1idD")) = gs "1idd" ∧
    toCamelCase (toPascalCase (gs "1idd")) = gs "1Idd" ∧
    toCamelCase (toPascalCase (toCamelCase (toPascalCase (gs "_1idD")))) ≠
      toCamelCase (toPascalCase (gs "_1idD")) := by
  refine ⟨by decide, by decide, by decide, by decide, by decide⟩

/-- Concrete instance of the amended C7 theorem at the digit-free identifier
user_id, whose camel form is userID. -/
theorem toCamelCase_idempotent_on_digitfree_identifiers_witness :
    toCamelCase (toPascalCase (toCamelCase (toPascalCase (gs "user_id")))) =
      toCamelCase (toPascalCase (gs "user_id")) :=
  toCamelCase_idempotent_on_digitfree_identifiers (gs "user_id")
    (by decide) (by decide) (by decide)

end Oapix
